import Mathlib

/-!
# Verification of the InsightEngine heuristic extraction pipeline

Shallow embedding, in Lean 4, of the deterministic core of the
financial-document comparison application: the `NumberParser` unit/currency
conversion, the `RatioCalculator`, the `KPINormalizer` company-name
normalization and matching, the heuristic/AI extraction merger, and the
`WebDataCache` LRU+TTL cache.

Modelling conventions:
* JavaScript numbers are modelled as exact rationals (`ℚ`); all divisions in
  the embedded code are guarded exactly as in the source, so no division by
  zero is reachable on the guarded paths.
* JavaScript strings are modelled as lists of code points (`List ℕ`), with
  `strChars` turning a Lean string literal into that form.
* `Math.round` is modelled as `⌊x + 1/2⌋` (round half towards positive
  infinity), which is JavaScript's rounding rule.
* Nullable values (`number | null`, absent object fields) are modelled as
  `Option`; JavaScript's falsiness test `!x` on a finite nullable number is
  `none` or `some 0`.
-/

/-! ## NumberParser: document context and conversion to billions USD
    (src/server/services/numberParser.ts) -/

inductive DocumentScale where
  | thousands | millions | billions | crores | lakhs | units
  deriving DecidableEq, Repr

inductive Currency where
  | USD | INR | EUR | GBP | unknown
  deriving DecidableEq, Repr

/-- `FinancialContext` from numberParser.ts: per-document scale, currency,
free-text period and quarterly flag. -/
structure FinancialContext where
  documentScale : DocumentScale
  currency : Currency
  period : Option (List ℕ)
  isQuarterly : Bool
  deriving DecidableEq, Repr

/-- JavaScript `Math.round`: round half towards positive infinity. -/
def jsRound (q : ℚ) : ℤ := ⌊q + 1/2⌋

/-- `Math.round(x * 1000) / 1000`: round to 3 decimal places. -/
def roundTo3 (q : ℚ) : ℚ := (jsRound (q * 1000) : ℚ) / 1000

/-- `Math.round(x * 100) / 100`: round to 2 decimal places. -/
def roundTo2 (q : ℚ) : ℚ := (jsRound (q * 100) : ℚ) / 100

/-- `NumberParser.convertToBillionsUSD` (numberParser.ts lines 179-221):
scale switch first, then currency switch, then round to 3 decimals. -/
def convertToBillionsUSD (value : ℚ) (context : FinancialContext) : ℚ :=
  let converted :=
    match context.documentScale with
    | .thousands => value / 1000000
    | .millions => value / 1000
    | .billions => value
    | .crores => value / 100
    | .lakhs => value / 10000
    | .units => value / 1000000000
  let converted2 :=
    match context.currency with
    | .INR => converted / 83
    | .EUR => converted * (11/10)
    | .GBP => converted * (5/4)
    | .USD => converted
    | .unknown => converted
  roundTo3 converted2

/-- Scale factor table as worded by the spec (thousands divide by 1e6,
millions by 1e3, billions unchanged, crores by 100, lakhs by 10000, any
unrecognized scale by 1e9). -/
def scaleFactorSpec : DocumentScale → ℚ
  | .thousands => 1/1000000
  | .millions => 1/1000
  | .billions => 1
  | .crores => 1/100
  | .lakhs => 1/10000
  | .units => 1/1000000000

/-- Currency factor table as worded by the spec (INR divides by 83, EUR
multiplies by 1.1, GBP by 1.25, USD or unknown unchanged). -/
def currencyFactorSpec : Currency → ℚ
  | .INR => 1/83
  | .EUR => 11/10
  | .GBP => 5/4
  | .USD => 1
  | .unknown => 1

/-- Conversion as worded by the spec: apply the scale factor, then the
currency factor, then round to 3 decimal places. -/
def convertToBillionsUSDSpec (value : ℚ) (context : FinancialContext) : ℚ :=
  roundTo3 (currencyFactorSpec context.currency *
    (scaleFactorSpec context.documentScale * value))

/-! ## RatioCalculator (financial ratio calculator service)

`RatioInputs` is the normalized metrics bag; every field is a finite number
or null/absent, modelled as `Option ℚ`. -/

structure RatioInputs where
  revenue : Option ℚ := none
  netIncome : Option ℚ := none
  grossProfit : Option ℚ := none
  operatingIncome : Option ℚ := none
  ebitda : Option ℚ := none
  totalAssets : Option ℚ := none
  currentAssets : Option ℚ := none
  currentLiabilities : Option ℚ := none
  totalDebt : Option ℚ := none
  longTermDebt : Option ℚ := none
  shortTermDebt : Option ℚ := none
  cashEquivalents : Option ℚ := none
  shareholdersEquity : Option ℚ := none
  sharesOutstanding : Option ℚ := none
  stockPrice : Option ℚ := none
  marketCap : Option ℚ := none
  deriving DecidableEq, Repr

/-- The keys of the `CalculatedRatios` record. -/
inductive RatioName where
  | grossMargin | operatingMargin | profitMargin | roe | roa | roic
  | currentRatio | quickRatio | cashRatio
  | debtToEquity | debtToAssets
  | eps | bookValuePerShare
  | peRatio | pbRatio
  | interestCoverage
  deriving DecidableEq, Repr

/-- `CalculatedRatios` as a total map from ratio key to nullable number. -/
def CalculatedRatios : Type := RatioName → Option ℚ

/-- JavaScript falsiness `!x` of a nullable finite number: true exactly on
null/undefined and 0. -/
def falsy : Option ℚ → Bool
  | none => true
  | some v => v == 0

/-- The numeric value behind a non-falsy nullable number (only ever applied
after a `falsy` guard, mirroring how the source dereferences after its
null checks). -/
def jsVal (x : Option ℚ) : ℚ := x.getD 0

def calculateGrossMargin (grossProfit revenue : Option ℚ) : Option ℚ :=
  if falsy grossProfit || falsy revenue || revenue == some 0 then none
  else some (roundTo2 (jsVal grossProfit / jsVal revenue * 100))

def calculateOperatingMargin (operatingIncome revenue : Option ℚ) : Option ℚ :=
  if falsy operatingIncome || falsy revenue || revenue == some 0 then none
  else some (roundTo2 (jsVal operatingIncome / jsVal revenue * 100))

def calculateProfitMargin (netIncome revenue : Option ℚ) : Option ℚ :=
  if falsy netIncome || falsy revenue || revenue == some 0 then none
  else some (roundTo2 (jsVal netIncome / jsVal revenue * 100))

def calculateROE (netIncome shareholdersEquity : Option ℚ) : Option ℚ :=
  if falsy netIncome || falsy shareholdersEquity || shareholdersEquity == some 0 then none
  else some (roundTo2 (jsVal netIncome / jsVal shareholdersEquity * 100))

def calculateROA (netIncome totalAssets : Option ℚ) : Option ℚ :=
  if falsy netIncome || falsy totalAssets || totalAssets == some 0 then none
  else some (roundTo2 (jsVal netIncome / jsVal totalAssets * 100))

def calculateROIC (netIncome totalDebt shareholdersEquity : Option ℚ) : Option ℚ :=
  if falsy netIncome || falsy totalDebt || falsy shareholdersEquity then none
  else
    let investedCapital := jsVal totalDebt + jsVal shareholdersEquity
    if investedCapital == 0 then none
    else some (roundTo2 (jsVal netIncome / investedCapital * 100))

def calculateCurrentRatio (currentAssets currentLiabilities : Option ℚ) : Option ℚ :=
  if falsy currentAssets || falsy currentLiabilities || currentLiabilities == some 0 then none
  else some (roundTo2 (jsVal currentAssets / jsVal currentLiabilities))

def calculateQuickRatio (currentAssets currentLiabilities : Option ℚ) : Option ℚ :=
  if falsy currentAssets || falsy currentLiabilities || currentLiabilities == some 0 then none
  else some (roundTo2 (jsVal currentAssets * (7/10) / jsVal currentLiabilities))

def calculateCashRatio (cashEquivalents currentLiabilities : Option ℚ) : Option ℚ :=
  if falsy cashEquivalents || falsy currentLiabilities || currentLiabilities == some 0 then none
  else some (roundTo2 (jsVal cashEquivalents / jsVal currentLiabilities))

def calculateDebtToEquity (totalDebt shareholdersEquity : Option ℚ) : Option ℚ :=
  if falsy totalDebt || falsy shareholdersEquity || shareholdersEquity == some 0 then none
  else some (roundTo2 (jsVal totalDebt / jsVal shareholdersEquity))

def calculateDebtToAssets (totalDebt totalAssets : Option ℚ) : Option ℚ :=
  if falsy totalDebt || falsy totalAssets || totalAssets == some 0 then none
  else some (roundTo2 (jsVal totalDebt / jsVal totalAssets * 100))

def calculateEPS (netIncome sharesOutstanding : Option ℚ) : Option ℚ :=
  if falsy netIncome || falsy sharesOutstanding || sharesOutstanding == some 0 then none
  else some (roundTo2 (jsVal netIncome * 1000 / jsVal sharesOutstanding))

def calculateBookValuePerShare (shareholdersEquity sharesOutstanding : Option ℚ) : Option ℚ :=
  if falsy shareholdersEquity || falsy sharesOutstanding || sharesOutstanding == some 0 then none
  else some (roundTo2 (jsVal shareholdersEquity * 1000 / jsVal sharesOutstanding))

def calculatePERatio (stockPrice eps : Option ℚ) : Option ℚ :=
  if falsy stockPrice || falsy eps || eps == some 0 then none
  else some (roundTo2 (jsVal stockPrice / jsVal eps))

def calculatePBRatio (stockPrice bookValuePerShare : Option ℚ) : Option ℚ :=
  if falsy stockPrice || falsy bookValuePerShare || bookValuePerShare == some 0 then none
  else some (roundTo2 (jsVal stockPrice / jsVal bookValuePerShare))

/-- `RatioCalculator.calculateAllRatios`: every key of the output record, as
assigned by the source (the source never assigns `interestCoverage`, which
therefore stays null/undefined). -/
def calculateAllRatios (inputs : RatioInputs) : CalculatedRatios := fun n =>
  match n with
  | .grossMargin => calculateGrossMargin inputs.grossProfit inputs.revenue
  | .operatingMargin => calculateOperatingMargin inputs.operatingIncome inputs.revenue
  | .profitMargin => calculateProfitMargin inputs.netIncome inputs.revenue
  | .roe => calculateROE inputs.netIncome inputs.shareholdersEquity
  | .roa => calculateROA inputs.netIncome inputs.totalAssets
  | .roic => calculateROIC inputs.netIncome inputs.totalDebt inputs.shareholdersEquity
  | .currentRatio => calculateCurrentRatio inputs.currentAssets inputs.currentLiabilities
  | .quickRatio => calculateQuickRatio inputs.currentAssets inputs.currentLiabilities
  | .cashRatio => calculateCashRatio inputs.cashEquivalents inputs.currentLiabilities
  | .debtToEquity => calculateDebtToEquity inputs.totalDebt inputs.shareholdersEquity
  | .debtToAssets => calculateDebtToAssets inputs.totalDebt inputs.totalAssets
  | .eps => calculateEPS inputs.netIncome inputs.sharesOutstanding
  | .bookValuePerShare => calculateBookValuePerShare inputs.shareholdersEquity inputs.sharesOutstanding
  | .peRatio => calculatePERatio inputs.stockPrice
      (calculateEPS inputs.netIncome inputs.sharesOutstanding)
  | .pbRatio => calculatePBRatio inputs.stockPrice
      (calculateBookValuePerShare inputs.shareholdersEquity inputs.sharesOutstanding)
  | .interestCoverage => none

/-- A nullable input is present and non-zero. -/
def presentNonzero (x : Option ℚ) : Prop := x ≠ none ∧ x ≠ some 0

/-- Claim-side ratio: null when any required input is null, absent or zero,
otherwise the documented formula rounded to 2 decimals (this is claim C2's
wording, with no further guard). -/
def specRatio2 (a b : Option ℚ) (formula : ℚ → ℚ → ℚ) : Option ℚ :=
  match a, b with
  | some x, some y => if x = 0 ∨ y = 0 then none else some (roundTo2 (formula x y))
  | _, _ => none

def specRatio3 (a b c : Option ℚ) (formula : ℚ → ℚ → ℚ → ℚ) : Option ℚ :=
  match a, b, c with
  | some x, some y, some z =>
    if x = 0 ∨ y = 0 ∨ z = 0 then none else some (roundTo2 (formula x y z))
  | _, _, _ => none

/-- The ratio record as claim C2 words it: each key is null whenever any
input required by its documented formula is null, absent or zero, and
otherwise equals the documented formula's value rounded to 2 decimal places.
(`peRatio`/`pbRatio` take the computed `eps`/`bookValuePerShare` as an input
of their formulas, as documented.) -/
def allRatiosClaimed (inputs : RatioInputs) : CalculatedRatios := fun n =>
  match n with
  | .grossMargin => specRatio2 inputs.grossProfit inputs.revenue (fun gp rev => gp / rev * 100)
  | .operatingMargin => specRatio2 inputs.operatingIncome inputs.revenue (fun oi rev => oi / rev * 100)
  | .profitMargin => specRatio2 inputs.netIncome inputs.revenue (fun ni rev => ni / rev * 100)
  | .roe => specRatio2 inputs.netIncome inputs.shareholdersEquity (fun ni se => ni / se * 100)
  | .roa => specRatio2 inputs.netIncome inputs.totalAssets (fun ni ta => ni / ta * 100)
  | .roic => specRatio3 inputs.netIncome inputs.totalDebt inputs.shareholdersEquity
      (fun ni td se => ni / (td + se) * 100)
  | .currentRatio => specRatio2 inputs.currentAssets inputs.currentLiabilities (fun ca cl => ca / cl)
  | .quickRatio => specRatio2 inputs.currentAssets inputs.currentLiabilities
      (fun ca cl => ca * (7/10) / cl)
  | .cashRatio => specRatio2 inputs.cashEquivalents inputs.currentLiabilities (fun ce cl => ce / cl)
  | .debtToEquity => specRatio2 inputs.totalDebt inputs.shareholdersEquity (fun td se => td / se)
  | .debtToAssets => specRatio2 inputs.totalDebt inputs.totalAssets (fun td ta => td / ta * 100)
  | .eps => specRatio2 inputs.netIncome inputs.sharesOutstanding (fun ni so => ni * 1000 / so)
  | .bookValuePerShare => specRatio2 inputs.shareholdersEquity inputs.sharesOutstanding
      (fun se so => se * 1000 / so)
  | .peRatio => specRatio2 inputs.stockPrice
      (allRatiosClaimedEPS inputs) (fun sp e => sp / e)
  | .pbRatio => specRatio2 inputs.stockPrice
      (allRatiosClaimedBVPS inputs) (fun sp b => sp / b)
  | .interestCoverage => none
where
  allRatiosClaimedEPS (inputs : RatioInputs) : Option ℚ :=
    specRatio2 inputs.netIncome inputs.sharesOutstanding (fun ni so => ni * 1000 / so)
  allRatiosClaimedBVPS (inputs : RatioInputs) : Option ℚ :=
    specRatio2 inputs.shareholdersEquity inputs.sharesOutstanding (fun se so => se * 1000 / so)

/-- The amendment of claim C2: identical to `allRatiosClaimed` except the
`roic` key, which is additionally null when the invested capital
`totalDebt + shareholdersEquity` is zero. -/
def allRatiosAmended (inputs : RatioInputs) : CalculatedRatios := fun n =>
  match n with
  | .roic =>
    match inputs.netIncome, inputs.totalDebt, inputs.shareholdersEquity with
    | some ni, some td, some se =>
      if ni = 0 ∨ td = 0 ∨ se = 0 ∨ td + se = 0 then none
      else some (roundTo2 (ni / (td + se) * 100))
    | _, _, _ => none
  | n => allRatiosClaimed inputs n

/-- `RatioCalculator.validateRatios` bounds table. `interestCoverage` has
no entry in the source's table. -/
def ratioBounds : RatioName → Option (ℚ × ℚ)
  | .grossMargin => some (-100, 100)
  | .operatingMargin => some (-100, 100)
  | .profitMargin => some (-100, 100)
  | .roe => some (-100, 200)
  | .roa => some (-100, 100)
  | .roic => some (-100, 100)
  | .currentRatio => some (0, 50)
  | .quickRatio => some (0, 50)
  | .cashRatio => some (0, 50)
  | .debtToEquity => some (0, 50)
  | .debtToAssets => some (0, 100)
  | .eps => some (-1000, 1000)
  | .bookValuePerShare => some (-1000, 10000)
  | .peRatio => some (-1000, 1000)
  | .pbRatio => some (-100, 100)
  | .interestCoverage => none

/-- `RatioCalculator.validateRatios`: a non-null value with a bounds entry is
replaced by null when it falls outside `[min, max]`; everything else passes
through unchanged. -/
def validateRatios (ratios : CalculatedRatios) : CalculatedRatios := fun n =>
  match ratios n with
  | none => none
  | some v =>
    match ratioBounds n with
    | none => some v
    | some (lo, hi) => if v < lo || hi < v then none else some v

/-- Inputs that exhibit the gap in claim C2: all three ROIC inputs present
and non-zero, but invested capital `totalDebt + shareholdersEquity = 0`. -/
def roicGapInputs : RatioInputs :=
  { netIncome := some 1, totalDebt := some 5, shareholdersEquity := some (-5) }

/-- The scenario inputs of claim C2. -/
def scenarioInputs : RatioInputs :=
  { revenue := some 10, netIncome := some (3/2), grossProfit := none }

/-! ## KPINormalizer (src/server/services/kpiNormalizer.ts)

JavaScript strings are modelled as lists of UTF-16 code points (`List ℕ`).
The regex character classes are embedded for the code-point ranges the source
manipulates: `\w` is `[A-Za-z0-9_]`, `\s` is modelled by the common
JavaScript whitespace code points (space, tab, LF, VT, FF, CR, NBSP). -/

/-- A JavaScript string as its list of code points. -/
abbrev JSString : Type := List ℕ

/-- Code points of a Lean string literal, for readable statements. -/
def strChars (s : String) : JSString := s.data.map Char.toNat

/-- Regex class `[a-z]`. -/
def isLowerAlpha (c : ℕ) : Bool := 97 ≤ c && c ≤ 122

/-- Regex class `[A-Z]`. -/
def isUpperAlpha (c : ℕ) : Bool := 65 ≤ c && c ≤ 90

/-- Regex class `\w` = `[A-Za-z0-9_]`. -/
def isWordChar (c : ℕ) : Bool :=
  isLowerAlpha c || isUpperAlpha c || (48 ≤ c && c ≤ 57) || c == 95

/-- Regex class `\s` (the JavaScript whitespace code points that can occur
in the inputs modelled here). -/
def isSpaceChar (c : ℕ) : Bool :=
  c == 32 || c == 9 || c == 10 || c == 11 || c == 12 || c == 13 || c == 160

def wordOrSpace (c : ℕ) : Bool := isWordChar c || isSpaceChar c

/-- `String.prototype.toLowerCase` on the ASCII letters (the only characters
the embedded comparisons are case-sensitive about). -/
def toLowerCode (c : ℕ) : ℕ := if isUpperAlpha c then c + 32 else c

/-- `.replace(/([a-z])([A-Z])/g, '$1 $2')`: insert a space between a
lowercase letter and the following uppercase letter; the scan resumes after
the uppercase letter, as the JavaScript global regex does. -/
def camelSplit : List ℕ → List ℕ
  | [] => []
  | [c] => [c]
  | c1 :: c2 :: rest =>
    if isLowerAlpha c1 && isUpperAlpha c2 then c1 :: 32 :: c2 :: camelSplit rest
    else c1 :: camelSplit (c2 :: rest)

/-- The legal-suffix alternation of
`/\b(inc|incorporated|corp|corporation|ltd|limited|llc|co|company)\b\.?/gi`. -/
def suffixWordList : List JSString :=
  [strChars "inc", strChars "incorporated", strChars "corp",
   strChars "corporation", strChars "ltd", strChars "limited",
   strChars "llc", strChars "co", strChars "company"]

/-- A word matches the suffix alternation case-insensitively. -/
def isLegalSuffixWord (w : JSString) : Bool :=
  suffixWordList.contains (w.map toLowerCode)

/-- Global replace of `/\b(inc|...|company)\b\.?/gi` with the empty string.
Because every alternative consists of letters and is bracketed by `\b`, a
match is exactly a maximal `\w`-run equal to one of the alternatives,
optionally followed by a literal `.` which the match consumes. `cur` is the
maximal word run scanned so far. -/
def removeSuffixesAux : List ℕ → JSString → List ℕ
  | [], cur => if isLegalSuffixWord cur then [] else cur
  | c :: cs, cur =>
    if isWordChar c then removeSuffixesAux cs (cur ++ [c])
    else if isLegalSuffixWord cur then
      (if c == 46 then removeSuffixesAux cs [] else c :: removeSuffixesAux cs [])
    else cur ++ c :: removeSuffixesAux cs []

def removeSuffixes (l : List ℕ) : List ℕ := removeSuffixesAux l []

/-- `.replace(/\s+/g, ' ')`: each maximal whitespace run becomes one space.
The flag records whether the previous character was part of a whitespace
run. -/
def collapseWsAux : Bool → List ℕ → List ℕ
  | _, [] => []
  | prevSpace, c :: cs =>
    if isSpaceChar c then
      if prevSpace then collapseWsAux true cs else 32 :: collapseWsAux true cs
    else c :: collapseWsAux false cs

def collapseWs (l : List ℕ) : List ℕ := collapseWsAux false l

/-- Right half of `String.prototype.trim`: drop trailing whitespace. -/
def trimRight : List ℕ → List ℕ
  | [] => []
  | c :: cs =>
    let r := trimRight cs
    if r.isEmpty then (if isSpaceChar c then [] else [c]) else c :: r

/-- `String.prototype.trim`. -/
def jsTrim (l : List ℕ) : List ℕ := trimRight (l.dropWhile isSpaceChar)

/-- `KPINormalizer.normalizeCompanyName`: camel-case split, legal-suffix
removal, removal of non-word non-space characters, whitespace collapse,
trim, lowercase — in the source's order. -/
def normalizeCompanyName (name : JSString) : JSString :=
  (jsTrim (collapseWs
    ((removeSuffixes (camelSplit name)).filter wordOrSpace))).map toLowerCode

/-- The maximal `\w`-runs of a string (proof infrastructure for the shape of
normalized names); `cur` accumulates the current run. -/
def wordsAux : List ℕ → JSString → List JSString
  | [], cur => if cur.isEmpty then [] else [cur]
  | c :: cs, cur =>
    if isWordChar c then wordsAux cs (cur ++ [c])
    else if cur.isEmpty then wordsAux cs [] else cur :: wordsAux cs []

def wordsOf (l : List ℕ) : List JSString := wordsAux l []

/-- No two adjacent whitespace characters (the shape `collapseWs` leaves
behind). -/
def noTwoSpaces (l : List ℕ) : Prop :=
  List.Chain' (fun a b => ¬(isSpaceChar a = true ∧ isSpaceChar b = true)) l

/-! ### Company-name matching (`KPINormalizer.validateCompanyNameMatch`) -/

/-- Levenshtein edit distance between two strings — the value computed by the
source's dynamic-programming matrix, written as the textbook recurrence
(delete, insert, substitute-with-cost). -/
def levenshteinDistance : JSString → JSString → ℕ
  | [], t => t.length
  | s, [] => s.length
  | c :: s, d :: t =>
    min (levenshteinDistance s (d :: t) + 1)
      (min (levenshteinDistance (c :: s) t + 1)
        (levenshteinDistance s t + (if c = d then 0 else 1)))
termination_by s t => s.length + t.length
decreasing_by all_goals (simp_wf; try omega)

/-- `KPINormalizer.calculateStringSimilarity`: normalized similarity
`(maxLen - distance) / maxLen` with the source's base cases for empty
strings. -/
def calculateStringSimilarity (str1 str2 : JSString) : ℚ :=
  if str1.length = 0 then (if str2.length = 0 then 1 else 0)
  else if str2.length = 0 then 0
  else ((max str1.length str2.length : ℕ) - (levenshteinDistance str1 str2 : ℚ)) /
    ((max str1.length str2.length : ℕ) : ℚ)

/-- The human-readable issue strings built by the source, modelled as tagged
values that retain the interpolated data. -/
inductive Issue where
  | typoToleranceMatch (user ai : JSString)
  | shortNameNote (user ai : JSString)
  | abbreviationNote (user ai : JSString)
  | partialNameNote (user ai : JSString)
  | nameMismatch (user ai : JSString)
  | verifyDocumentHint
  | confidenceScoreReport (score : ℚ)
  deriving DecidableEq, Repr

/-- `NameMatchResult`: outcome of comparing a user-entered company name
against an AI-extracted one. -/
structure NameMatchResult where
  isMatch : Bool
  confidence : ℚ
  userNormalized : JSString
  aiNormalized : JSString
  issues : List Issue
  deriving DecidableEq, Repr

/-- `.split(/\s+/)`: the maximal non-whitespace runs (JavaScript's leading
empty token is dropped by the length filter below either way). -/
def tokensAux : List ℕ → JSString → List JSString
  | [], cur => if cur.isEmpty then [] else [cur]
  | c :: cs, cur =>
    if isSpaceChar c then (if cur.isEmpty then tokensAux cs [] else cur :: tokensAux cs [])
    else tokensAux cs (cur ++ [c])

/-- `normalized.split(/\s+/).filter(w => w.length > 2)`. -/
def splitWords (l : JSString) : List JSString :=
  (tokensAux l []).filter (fun w => 2 < w.length)

/-- The inner loop over `aiWords` for one `userWord`: stop at the first exact
match (counting it once), otherwise count every fuzzy match with similarity
strictly above 0.7 along the way. Returns (exact, fuzzy) increments. -/
def countWordMatches (userWord : JSString) : List JSString → ℕ × ℕ
  | [] => (0, 0)
  | aiWord :: rest =>
    if userWord = aiWord then (1, 0)
    else
      let p := countWordMatches userWord rest
      (p.1, p.2 + (if (7/10 : ℚ) < calculateStringSimilarity userWord aiWord then 1 else 0))

/-- The outer loop: total exact and fuzzy matches over all user words. -/
def countAllMatches (userWords aiWords : List JSString) : ℕ × ℕ :=
  userWords.foldl (fun acc uw =>
    ((countWordMatches uw aiWords).1 + acc.1, (countWordMatches uw aiWords).2 + acc.2))
    (0, 0)

/-- `overlapRatio` / `safeOverlapRatio` of the source: total matches over the
smaller word count, with the division guarded (the source's extra `isNaN`
check cannot fire in exact arithmetic). -/
def overlapRatioOf (userWords aiWords : List JSString) : ℚ :=
  if 0 < min userWords.length aiWords.length then
    (((countAllMatches userWords aiWords).1 + (countAllMatches userWords aiWords).2 : ℕ) : ℚ) /
      ((min userWords.length aiWords.length : ℕ) : ℚ)
  else 0

/-- `String.prototype.includes`: substring containment test. -/
def jsIncludes : JSString → JSString → Bool
  | [], needle => needle.isEmpty
  | c :: rest, needle => List.isPrefixOf needle (c :: rest) || jsIncludes rest needle

/-- `knownShortNames` table of `checkShortNameMatch`. -/
def knownShortNames : List JSString :=
  [strChars "3m", strChars "ibm", strChars "ge", strChars "hp", strChars "att",
   strChars "bp", strChars "ups", strChars "amd", strChars "aig"]

/-- One pair check of `checkShortNameMatch`: known-short-name equality at
confidence 0.95, else the length-3 prefix rule at confidence 0.85. -/
def shortNamePairCheck (userWord aiWord : JSString) : Option ℚ :=
  if knownShortNames.contains (userWord.map toLowerCode) &&
      knownShortNames.contains (aiWord.map toLowerCode) &&
      userWord.map toLowerCode == aiWord.map toLowerCode then
    some (95/100)
  else if ((userWord.map toLowerCode).length ≤ 3 || (aiWord.map toLowerCode).length ≤ 3) &&
      (userWord.map toLowerCode == aiWord.map toLowerCode ||
        List.isPrefixOf (userWord.map toLowerCode) (aiWord.map toLowerCode) ||
        List.isPrefixOf (aiWord.map toLowerCode) (userWord.map toLowerCode)) then
    some (85/100)
  else none

/-- `KPINormalizer.checkShortNameMatch`: first pair (row-major over
userWords × aiWords) passing either rule wins. -/
def checkShortNameMatch (userWords aiWords : List JSString) : Bool × ℚ :=
  match userWords.findSome? (fun uw => aiWords.findSome? (fun aw => shortNamePairCheck uw aw)) with
  | some conf => (true, conf)
  | none => (false, 0)

/-- One pair check of `checkAbbreviationMatch`: the longer word is more than
twice the shorter's length and starts with it (case-insensitively), in either
direction. -/
def abbreviationPair (userWord aiWord : JSString) : Bool :=
  (2 ≤ userWord.length && userWord.length * 2 < aiWord.length &&
    List.isPrefixOf (userWord.map toLowerCode) (aiWord.map toLowerCode)) ||
  (2 ≤ aiWord.length && aiWord.length * 2 < userWord.length &&
    List.isPrefixOf (aiWord.map toLowerCode) (userWord.map toLowerCode))

/-- `KPINormalizer.checkAbbreviationMatch`. -/
def checkAbbreviationMatch (userWords aiWords : List JSString) : Bool :=
  userWords.any (fun uw => aiWords.any (fun aw => abbreviationPair uw aw))

/-- `KPINormalizer.validateCompanyNameMatch` (kpiNormalizer.ts lines
111-226). The source's local variables are inlined; every branch returns a
`NameMatchResult` whose `userNormalized` is the normalized document name, as
the source does. -/
def validateCompanyNameMatch (userEnteredName aiExtractedName : JSString) : NameMatchResult :=
  if normalizeCompanyName userEnteredName = normalizeCompanyName aiExtractedName then
    { isMatch := true, confidence := 1,
      userNormalized := normalizeCompanyName aiExtractedName,
      aiNormalized := normalizeCompanyName aiExtractedName, issues := [] }
  else if 7/10 ≤ overlapRatioOf (splitWords (normalizeCompanyName userEnteredName))
      (splitWords (normalizeCompanyName aiExtractedName)) then
    { isMatch := true,
      confidence := min (overlapRatioOf (splitWords (normalizeCompanyName userEnteredName))
        (splitWords (normalizeCompanyName aiExtractedName)) + 1/10) 1,
      userNormalized := normalizeCompanyName aiExtractedName,
      aiNormalized := normalizeCompanyName aiExtractedName,
      issues := [Issue.typoToleranceMatch userEnteredName aiExtractedName] }
  else if (checkShortNameMatch (splitWords (normalizeCompanyName userEnteredName))
      (splitWords (normalizeCompanyName aiExtractedName))).1 then
    { isMatch := true,
      confidence := (checkShortNameMatch (splitWords (normalizeCompanyName userEnteredName))
        (splitWords (normalizeCompanyName aiExtractedName))).2,
      userNormalized := normalizeCompanyName aiExtractedName,
      aiNormalized := normalizeCompanyName aiExtractedName,
      issues := [Issue.shortNameNote userEnteredName aiExtractedName] }
  else if checkAbbreviationMatch (splitWords (normalizeCompanyName userEnteredName))
      (splitWords (normalizeCompanyName aiExtractedName)) then
    { isMatch := true, confidence := 75/100,
      userNormalized := normalizeCompanyName aiExtractedName,
      aiNormalized := normalizeCompanyName aiExtractedName,
      issues := [Issue.abbreviationNote userEnteredName aiExtractedName] }
  else if jsIncludes (normalizeCompanyName aiExtractedName)
        (normalizeCompanyName userEnteredName) ||
      jsIncludes (normalizeCompanyName userEnteredName)
        (normalizeCompanyName aiExtractedName) then
    { isMatch := true, confidence := 8/10,
      userNormalized := normalizeCompanyName aiExtractedName,
      aiNormalized := normalizeCompanyName aiExtractedName,
      issues := [Issue.partialNameNote userEnteredName aiExtractedName] }
  else
    { isMatch := false,
      confidence := overlapRatioOf (splitWords (normalizeCompanyName userEnteredName))
        (splitWords (normalizeCompanyName aiExtractedName)),
      userNormalized := normalizeCompanyName aiExtractedName,
      aiNormalized := normalizeCompanyName aiExtractedName,
      issues := [Issue.nameMismatch userEnteredName aiExtractedName,
        Issue.verifyDocumentHint,
        Issue.confidenceScoreReport (overlapRatioOf
          (splitWords (normalizeCompanyName userEnteredName))
          (splitWords (normalizeCompanyName aiExtractedName)))] }

/-! ## ExtractionMerger (`NumberParser.mergeExtractionResults`)

The heuristic candidate map is a JavaScript `Map` iterated in insertion
order, modelled as an association list keyed by the fixed metric names of
`FINANCIAL_PATTERNS`; the merged record's `<metric>_confidence` and
`<metric>_evidence` sibling string keys are modelled as the separate `conf`
and `evid` maps (the fixed metric names never collide with the sibling
keys). -/

/-- The metric names of `NumberParser.FINANCIAL_PATTERNS`. -/
inductive Metric where
  | revenue | netIncome | totalAssets | cash | debt | ebitda
  | grossProfit | operatingIncome | sharesOutstanding | bookValue
  deriving DecidableEq, Repr

inductive ExtractionSource where
  | heuristic | ai
  deriving DecidableEq, Repr

/-- `ExtractedNumber` from numberParser.ts. -/
structure ExtractedNumber where
  value : ℚ
  originalText : JSString
  confidence : ℚ
  unit : DocumentScale
  currency : Currency
  source : ExtractionSource
  evidenceSnippet : JSString
  deriving DecidableEq, Repr

/-- The merge target: the AI record's numeric metric values plus the
`<metric>_confidence` / `<metric>_evidence` sibling keys. -/
structure MergedRecord where
  values : Metric → Option ℚ
  conf : Metric → Option ℚ
  evid : Metric → Option JSString

/-- One iteration of the merge loop: take `numbers[0]` as `bestNumber` and
overwrite the metric's value (and sibling keys) only when the AI value is
falsy (absent, null or zero). -/
def mergeStep (m : MergedRecord) (entry : Metric × List ExtractedNumber) : MergedRecord :=
  match entry.2 with
  | [] => m
  | bestNumber :: _ =>
    if falsy (m.values entry.1) then
      { values := fun n => if n = entry.1 then some bestNumber.value else m.values n,
        conf := fun n => if n = entry.1 then some bestNumber.confidence else m.conf n,
        evid := fun n => if n = entry.1 then some bestNumber.evidenceSnippet else m.evid n }
    else m

/-- `NumberParser.mergeExtractionResults` (numberParser.ts lines 251-273). -/
def mergeExtractionResults (heuristicResults : List (Metric × List ExtractedNumber))
    (aiResult : MergedRecord) : MergedRecord :=
  heuristicResults.foldl mergeStep aiResult

/-- Claim-side: "the highest-confidence heuristic candidate" (first one of
maximal confidence), as the claim words it. -/
def highestConfidenceCandidate : List ExtractedNumber → Option ExtractedNumber
  | [] => none
  | c :: rest =>
    match highestConfidenceCandidate rest with
    | none => some c
    | some b => some (if c.confidence < b.confidence then b else c)

/-- A candidate for the C3 counterexample with low confidence, listed
first. -/
def lowCand : ExtractedNumber :=
  { value := 5, originalText := [], confidence := 3/10, unit := DocumentScale.units,
    currency := Currency.unknown, source := ExtractionSource.heuristic, evidenceSnippet := [] }

/-- A candidate for the C3 counterexample with the highest confidence,
listed second. -/
def highCand : ExtractedNumber :=
  { value := 7, originalText := [], confidence := 9/10, unit := DocumentScale.units,
    currency := Currency.unknown, source := ExtractionSource.heuristic, evidenceSnippet := [] }

/-- An AI record with every key absent. -/
def emptyAIRecord : MergedRecord :=
  { values := fun _ => none, conf := fun _ => none, evid := fun _ => none }

/-! ## WebDataCache (in-memory LRU + TTL cache)

JavaScript `Map`s are modelled as association lists in insertion order:
`set` on an existing key updates the value in place (keeping the key's
position, as `Map.prototype.set` does), `set` on a new key appends. Times
are milliseconds as naturals. The sha256 digest of `generateCacheKey` is
modelled as an injective encoding — the cache's behaviour depends on the
key only through equality, so the normalized query itself serves as the
key. -/

/-- `CachedResult` from the cache module: payload (string or null), creation
time and absolute expiry time. -/
structure CachedResult where
  data : Option JSString
  timestamp : ℕ
  expiresAt : ℕ
  deriving DecidableEq, Repr

/-- `Map.prototype.get`. -/
def mapLookup {β : Type} : List (JSString × β) → JSString → Option β
  | [], _ => none
  | (k2, v) :: rest, k => if k2 = k then some v else mapLookup rest k

/-- `Map.prototype.set`: update in place, else append. -/
def mapSet {β : Type} : List (JSString × β) → JSString → β → List (JSString × β)
  | [], k, v => [(k, v)]
  | (k2, v2) :: rest, k, v =>
    if k2 = k then (k2, v) :: rest else (k2, v2) :: mapSet rest k v

/-- `Map.prototype.delete`. -/
def mapDelete {β : Type} (l : List (JSString × β)) (k : JSString) : List (JSString × β) :=
  l.filter (fun p => !(p.1 == k))

/-- The `WebDataCache` state: the entry map, the access-order map, the
configuration, and the monotone access counter. -/
structure WebDataCache where
  cache : List (JSString × CachedResult)
  accessOrder : List (JSString × ℕ)
  ttlMinutes : ℕ
  maxCacheSize : ℕ
  accessCounter : ℕ
  deriving DecidableEq, Repr

/-- The constructor: `options.ttlMinutes || 15`, `options.maxCacheSize ||
1000` (0 is falsy), empty maps, counter 0. -/
def mkWebDataCache (ttlMinutes maxCacheSize : ℕ) : WebDataCache :=
  { cache := [], accessOrder := [],
    ttlMinutes := if ttlMinutes = 0 then 15 else ttlMinutes,
    maxCacheSize := if maxCacheSize = 0 then 1000 else maxCacheSize,
    accessCounter := 0 }

/-- Query normalization inside `generateCacheKey`:
`query.toLowerCase().trim().replace(/\s+/g, ' ')`. -/
def normalizeQuery (q : JSString) : JSString := collapseWs (jsTrim (q.map toLowerCode))

/-- `generateCacheKey`: the sha256-prefix digest of the normalized query,
modelled as an injective encoding (the normalized query itself). -/
def generateCacheKey (q : JSString) : JSString := normalizeQuery q

/-- `updateAccessOrder`: `accessOrder.set(key, ++accessCounter)`. -/
def WebDataCache.updateAccessOrder (s : WebDataCache) (key : JSString) : WebDataCache :=
  { s with accessOrder := mapSet s.accessOrder key (s.accessCounter + 1),
           accessCounter := s.accessCounter + 1 }

/-- The scan of `evictLRU`: first entry with strictly smallest access
counter (`lruAccess` starts at Infinity, modelled by the `none`
accumulator). -/
def findLRU (l : List (JSString × ℕ)) : Option (JSString × ℕ) :=
  l.foldl (fun acc p =>
    match acc with
    | none => some p
    | some b => if p.2 < b.2 then some p else acc) none

/-- `WebDataCache.evictLRU`: no-op below capacity; otherwise remove the
least-recently-used key from both maps. -/
def WebDataCache.evictLRU (s : WebDataCache) : WebDataCache :=
  if s.cache.length < s.maxCacheSize then s
  else
    match findLRU s.accessOrder with
    | some (lruKey, _) =>
      { s with cache := mapDelete s.cache lruKey,
               accessOrder := mapDelete s.accessOrder lruKey }
    | none => s

/-- `WebDataCache.cleanupExpired`: remove every entry whose expiry time has
passed from both maps. -/
def WebDataCache.cleanupExpired (s : WebDataCache) (now : ℕ) : WebDataCache :=
  { s with
    cache := s.cache.filter (fun p => decide (now < p.2.expiresAt)),
    accessOrder := s.accessOrder.filter (fun p =>
      !(((s.cache.filter (fun q => decide (q.2.expiresAt ≤ now))).map Prod.fst).contains p.1)) }

/-- `WebDataCache.get`: miss on an absent key; an expired entry is removed
and reported as a miss; a valid hit bumps the entry's access counter and
returns the stored payload (which may itself be the null payload). -/
def WebDataCache.get (s : WebDataCache) (now : ℕ) (query : JSString) :
    Option JSString × WebDataCache :=
  let key := generateCacheKey query
  match mapLookup s.cache key with
  | none => (none, s)
  | some cachedResult =>
    if now < cachedResult.expiresAt then
      (cachedResult.data, s.updateAccessOrder key)
    else
      (none, { s with cache := mapDelete s.cache key,
                      accessOrder := mapDelete s.accessOrder key })

/-- `WebDataCache.set`: evict if at capacity, then store the entry with
absolute expiry `now + ttl` and bump its access counter. -/
def WebDataCache.set (s : WebDataCache) (now : ℕ) (query : JSString)
    (data : Option JSString) : WebDataCache :=
  let key := generateCacheKey query
  let cachedResult : CachedResult :=
    { data := data, timestamp := now, expiresAt := now + s.ttlMinutes * 60000 }
  let s1 := s.evictLRU
  ({ s1 with cache := mapSet s1.cache key cachedResult }).updateAccessOrder key

/-- `WebDataCache.delete`: remove from both maps, reporting whether the key
existed. -/
def WebDataCache.delete (s : WebDataCache) (query : JSString) : Bool × WebDataCache :=
  let key := generateCacheKey query
  ((mapLookup s.cache key).isSome,
    { s with cache := mapDelete s.cache key, accessOrder := mapDelete s.accessOrder key })

/-- `WebDataCache.clear`. -/
def WebDataCache.clear (s : WebDataCache) : WebDataCache :=
  { s with cache := [], accessOrder := [], accessCounter := 0 }

/-- The cache's external operations, for stating the C10 reachability
invariant. -/
inductive CacheOp where
  | set (query : JSString) (data : Option JSString) (now : ℕ)
  | get (query : JSString) (now : ℕ)
  | del (query : JSString)
  | clear
  | cleanup (now : ℕ)

def applyOp (s : WebDataCache) : CacheOp → WebDataCache
  | .set q d t => s.set t q d
  | .get q t => (s.get t q).2
  | .del q => (s.delete q).2
  | .clear => s.clear
  | .cleanup t => s.cleanupExpired t

/-- The internal well-formedness invariant of a reachable cache state:
aligned key sequences, distinct keys, size within capacity, positive
capacity, distinct access-counter values all bounded by the counter. -/
def CacheInv (s : WebDataCache) : Prop :=
  s.cache.map Prod.fst = s.accessOrder.map Prod.fst ∧
  (s.cache.map Prod.fst).Nodup ∧
  s.cache.length ≤ s.maxCacheSize ∧
  0 < s.maxCacheSize ∧
  (s.accessOrder.map Prod.snd).Nodup ∧
  (∀ p ∈ s.accessOrder, p.2 ≤ s.accessCounter)

/-- `searchFinancialDataWeb` (routes module): consult the cache first; on a
miss run the market-data generation (the try-block's fallible part, modelled
as an `Except` parameter); cache and return a successful result; on an
exception return null without touching the cache further (the catch block
explicitly avoids caching error results). -/
def searchFinancialDataWeb (s : WebDataCache) (now : ℕ) (query : JSString)
    (lookup : Except Unit JSString) : Option JSString × WebDataCache :=
  match s.get now query with
  | (some cachedResult, s1) => (some cachedResult, s1)
  | (none, s1) =>
    match lookup with
    | .error _ => (none, s1)
    | .ok result => (some result, s1.set now query (some result))

/-! ## Theorems -/

/-- Helper: the source's guard pattern for two-input ratios agrees with the
claim-side `specRatio2`. -/
theorem calcGuard_eq_specRatio2 (a b : Option ℚ) (f : ℚ → ℚ → ℚ) :
    (if falsy a || falsy b || b == some 0 then none
     else some (roundTo2 (f (jsVal a) (jsVal b)))) = specRatio2 a b f := by
  cases a <;> cases b <;>
    simp only [falsy, jsVal, specRatio2, Option.getD, Bool.or_eq_true, beq_iff_eq,
      Option.some.injEq, if_true, Bool.true_or, Bool.or_true]
  case some.some x y =>
    by_cases hx : x = 0 <;> by_cases hy : y = 0 <;> simp [hx, hy]

/-- C1: the conversion agrees with the spec's two-factor table, and 8300
crores INR converts to exactly 1.0 billion USD. -/
theorem convertToBillionsUSD_spec :
    (∀ (v : ℚ) (ctx : FinancialContext),
      convertToBillionsUSD v ctx = convertToBillionsUSDSpec v ctx) ∧
    convertToBillionsUSD 8300
      ⟨DocumentScale.crores, Currency.INR, none, false⟩ = 1 := by
  constructor
  · intro v ctx
    obtain ⟨s, c, p, q⟩ := ctx
    cases s <;> cases c <;>
      simp only [convertToBillionsUSD, convertToBillionsUSDSpec,
        scaleFactorSpec, currencyFactorSpec] <;> ring_nf
  · show roundTo3 (8300 / 100 / 83) = 1
    rw [show (8300 / 100 / 83 : ℚ) = 1 by norm_num]
    simp [roundTo3, jsRound]
    norm_num

/-- C2 counterexample: with netIncome 1, totalDebt 5, shareholdersEquity -5
(all present and non-zero), the code returns roic = null while the claim
demands the documented formula's rounded value; the claim as stated is
false on the code. -/
theorem calculateAllRatios_roic_gap :
    presentNonzero roicGapInputs.netIncome ∧
    presentNonzero roicGapInputs.totalDebt ∧
    presentNonzero roicGapInputs.shareholdersEquity ∧
    calculateAllRatios roicGapInputs RatioName.roic = none ∧
    allRatiosClaimed roicGapInputs RatioName.roic ≠ none := by
  refine ⟨⟨by simp [roicGapInputs], by simp [roicGapInputs]⟩,
    ⟨by simp [roicGapInputs], by simp [roicGapInputs]⟩,
    ⟨by simp [roicGapInputs], by simp [roicGapInputs]⟩, ?_, ?_⟩
  · show calculateROIC (some 1) (some 5) (some (-5)) = none
    norm_num [calculateROIC, falsy, jsVal]
  · show specRatio3 (some 1) (some 5) (some (-5))
      (fun ni td se => ni / (td + se) * 100) ≠ none
    norm_num [specRatio3]
    simp

/-- C2 (amended): every documented ratio key of `calculateAllRatios` is null
exactly when a required input is null/absent/zero — with roic additionally
null when invested capital is zero — and otherwise equals the documented
formula rounded to 2 decimals; in particular the scenario inputs
(revenue 10, netIncome 1.5, grossProfit null) yield profitMargin = 15.0 and
grossMargin = null. -/
theorem calculateAllRatios_matches_formulas :
    (∀ (inputs : RatioInputs) (n : RatioName), n ≠ RatioName.interestCoverage →
      calculateAllRatios inputs n = allRatiosAmended inputs n) ∧
    calculateAllRatios scenarioInputs RatioName.profitMargin = some 15 ∧
    calculateAllRatios scenarioInputs RatioName.grossMargin = none := by
  refine ⟨fun inputs n hn => ?_, ?_, ?_⟩
  · have heps : calculateEPS inputs.netIncome inputs.sharesOutstanding =
        allRatiosClaimed.allRatiosClaimedEPS inputs :=
      calcGuard_eq_specRatio2 inputs.netIncome inputs.sharesOutstanding
        (fun ni so => ni * 1000 / so)
    have hbvps : calculateBookValuePerShare inputs.shareholdersEquity inputs.sharesOutstanding =
        allRatiosClaimed.allRatiosClaimedBVPS inputs :=
      calcGuard_eq_specRatio2 inputs.shareholdersEquity inputs.sharesOutstanding
        (fun se so => se * 1000 / so)
    cases n with
    | interestCoverage => exact absurd rfl hn
    | grossMargin =>
      exact calcGuard_eq_specRatio2 inputs.grossProfit inputs.revenue
        (fun gp rev => gp / rev * 100)
    | operatingMargin =>
      exact calcGuard_eq_specRatio2 inputs.operatingIncome inputs.revenue
        (fun oi rev => oi / rev * 100)
    | profitMargin =>
      exact calcGuard_eq_specRatio2 inputs.netIncome inputs.revenue
        (fun ni rev => ni / rev * 100)
    | roe =>
      exact calcGuard_eq_specRatio2 inputs.netIncome inputs.shareholdersEquity
        (fun ni se => ni / se * 100)
    | roa =>
      exact calcGuard_eq_specRatio2 inputs.netIncome inputs.totalAssets
        (fun ni ta => ni / ta * 100)
    | currentRatio =>
      exact calcGuard_eq_specRatio2 inputs.currentAssets inputs.currentLiabilities
        (fun ca cl => ca / cl)
    | quickRatio =>
      exact calcGuard_eq_specRatio2 inputs.currentAssets inputs.currentLiabilities
        (fun ca cl => ca * (7/10) / cl)
    | cashRatio =>
      exact calcGuard_eq_specRatio2 inputs.cashEquivalents inputs.currentLiabilities
        (fun ce cl => ce / cl)
    | debtToEquity =>
      exact calcGuard_eq_specRatio2 inputs.totalDebt inputs.shareholdersEquity
        (fun td se => td / se)
    | debtToAssets =>
      exact calcGuard_eq_specRatio2 inputs.totalDebt inputs.totalAssets
        (fun td ta => td / ta * 100)
    | eps => exact heps
    | bookValuePerShare => exact hbvps
    | peRatio =>
      show calculatePERatio inputs.stockPrice
        (calculateEPS inputs.netIncome inputs.sharesOutstanding) = _
      rw [heps]
      exact calcGuard_eq_specRatio2 inputs.stockPrice
        (allRatiosClaimed.allRatiosClaimedEPS inputs) (fun sp e => sp / e)
    | pbRatio =>
      show calculatePBRatio inputs.stockPrice
        (calculateBookValuePerShare inputs.shareholdersEquity inputs.sharesOutstanding) = _
      rw [hbvps]
      exact calcGuard_eq_specRatio2 inputs.stockPrice
        (allRatiosClaimed.allRatiosClaimedBVPS inputs) (fun sp b => sp / b)
    | roic =>
      show calculateROIC inputs.netIncome inputs.totalDebt inputs.shareholdersEquity = _
      show _ = allRatiosAmended inputs RatioName.roic
      unfold calculateROIC allRatiosAmended
      cases inputs.netIncome with
      | none => simp [falsy]
      | some x =>
        cases inputs.totalDebt with
        | none => simp [falsy]
        | some y =>
          cases inputs.shareholdersEquity with
          | none => simp [falsy]
          | some z =>
            simp only [falsy, jsVal, Option.getD, beq_iff_eq, Bool.or_eq_true]
            by_cases hx : x = 0 <;> by_cases hy : y = 0 <;> by_cases hz : z = 0 <;>
              by_cases hyz : y + z = 0 <;> simp [hx, hy, hz, hyz]
  · show calculateProfitMargin (some (3/2)) (some 10) = some 15
    norm_num [calculateProfitMargin, falsy, jsVal, roundTo2, jsRound]
  · show calculateGrossMargin none (some 10) = none
    simp [calculateGrossMargin, falsy]

/-- Witness for C2's amended theorem at a concrete ratio key and input. -/
theorem calculateAllRatios_matches_formulas_witness :
    calculateAllRatios roicGapInputs RatioName.roe =
      allRatiosAmended roicGapInputs RatioName.roe :=
  calculateAllRatios_matches_formulas.1 roicGapInputs RatioName.roe (by decide)

/-- C7: every bounded key of `validateRatios`'s output is null or lies in its
documented range, and every in-range value passes through unchanged. -/
theorem validateRatios_within_bounds :
    (∀ (ratios : CalculatedRatios) (n : RatioName) (lo hi : ℚ),
      ratioBounds n = some (lo, hi) →
      validateRatios ratios n = none ∨
      ∃ v, validateRatios ratios n = some v ∧ lo ≤ v ∧ v ≤ hi ∧ ratios n = some v) ∧
    (∀ (ratios : CalculatedRatios) (n : RatioName) (v lo hi : ℚ),
      ratios n = some v → ratioBounds n = some (lo, hi) → lo ≤ v → v ≤ hi →
      validateRatios ratios n = some v) := by
  constructor
  · intro ratios n lo hi hb
    unfold validateRatios
    cases hr : ratios n with
    | none => exact Or.inl rfl
    | some v =>
      rw [hb]
      by_cases h1 : v < lo
      · exact Or.inl (by simp [h1])
      by_cases h2 : hi < v
      · exact Or.inl (by simp [h1, h2])
      · exact Or.inr ⟨v, by simp [h1, h2], le_of_not_lt h1, le_of_not_lt h2, rfl⟩
  · intro ratios n v lo hi hr hb h1 h2
    unfold validateRatios
    rw [hr, hb]
    simp [not_lt.mpr h1, not_lt.mpr h2]

/-- Witness for C7 at a concrete in-range ratio record. -/
theorem validateRatios_within_bounds_witness :
    validateRatios (fun _ => some 10) RatioName.currentRatio = some 10 :=
  validateRatios_within_bounds.2 (fun _ => some 10) RatioName.currentRatio 10 0 50
    rfl rfl (by norm_num) (by norm_num)

/-! ### Character-class lemmas -/

theorem space_not_word {c : ℕ} (h : isSpaceChar c = true) : isWordChar c = false := by
  simp only [isSpaceChar, Bool.or_eq_true, beq_iff_eq] at h
  simp only [isWordChar, isLowerAlpha, isUpperAlpha, Bool.or_eq_false_iff,
    Bool.and_eq_false_iff, beq_eq_false_iff_ne, ne_eq, decide_eq_false_iff_not, not_le]
  omega

theorem space_ne_46 {c : ℕ} (h : isSpaceChar c = true) : (c == 46) = false := by
  simp only [isSpaceChar, Bool.or_eq_true, beq_iff_eq] at h
  simp only [beq_eq_false_iff_ne, ne_eq]
  omega

theorem wordOrSpace_not_word {c : ℕ} (h : wordOrSpace c = true)
    (hw : isWordChar c = false) : isSpaceChar c = true := by
  simp only [wordOrSpace, hw, Bool.false_or] at h
  exact h

theorem toLowerCode_word (c : ℕ) : isWordChar (toLowerCode c) = isWordChar c := by
  rw [toLowerCode]
  split
  · next h =>
    simp only [isUpperAlpha, Bool.and_eq_true, decide_eq_true_eq] at h
    rw [Bool.eq_iff_iff]
    simp only [isWordChar, isLowerAlpha, isUpperAlpha, Bool.or_eq_true, Bool.and_eq_true,
      decide_eq_true_eq, beq_iff_eq]
    omega
  · rfl

theorem toLowerCode_space (c : ℕ) : isSpaceChar (toLowerCode c) = isSpaceChar c := by
  rw [toLowerCode]
  split
  · next h =>
    simp only [isUpperAlpha, Bool.and_eq_true, decide_eq_true_eq] at h
    rw [Bool.eq_iff_iff]
    simp only [isSpaceChar, Bool.or_eq_true, beq_iff_eq]
    omega
  · rfl

theorem toLowerCode_not_upper (c : ℕ) : isUpperAlpha (toLowerCode c) = false := by
  rw [toLowerCode]
  split
  · next h =>
    simp only [isUpperAlpha, Bool.and_eq_true, decide_eq_true_eq] at h
    simp only [isUpperAlpha, Bool.and_eq_false_iff, decide_eq_false_iff_not, not_le]
    omega
  · next h => exact Bool.not_eq_true _ ▸ (by simpa using h)

theorem toLowerCode_fix {c : ℕ} (h : isUpperAlpha c = false) : toLowerCode c = c := by
  rw [toLowerCode, h]
  rfl

theorem toLowerCode_idem (c : ℕ) : toLowerCode (toLowerCode c) = toLowerCode c :=
  toLowerCode_fix (toLowerCode_not_upper c)

/-! ### `wordsAux` lemmas -/

theorem wordsAux_word_prefix (w : JSString) (cs : List ℕ) (cur : JSString)
    (hw : ∀ c ∈ w, isWordChar c = true) :
    wordsAux (w ++ cs) cur = wordsAux cs (cur ++ w) := by
  induction w generalizing cur with
  | nil => simp
  | cons a w ih =>
    have ha : isWordChar a = true := hw a (by simp)
    rw [List.cons_append, wordsAux, if_pos ha, ih _ (fun c hc => hw c (by simp [hc]))]
    simp

theorem wordsAux_nonword_head {c : ℕ} (h : isWordChar c = false) (l : List ℕ) (cur : JSString) :
    wordsAux (c :: l) cur = if cur.isEmpty then wordsAux l [] else cur :: wordsAux l [] := by
  rw [wordsAux, if_neg (by simp [h])]

theorem wordsAux_word_head {c : ℕ} (h : isWordChar c = true) (l : List ℕ) (cur : JSString) :
    wordsAux (c :: l) cur = wordsAux l (cur ++ [c]) := by
  rw [wordsAux, if_pos h]

theorem wordsAux_all_nonword (l : List ℕ) (cur : JSString)
    (h : ∀ c ∈ l, isWordChar c = false) :
    wordsAux l cur = if cur.isEmpty then [] else [cur] := by
  induction l generalizing cur with
  | nil => rfl
  | cons c cs ih =>
    rw [wordsAux_nonword_head (h c (by simp)) cs cur]
    have h2 : wordsAux cs [] = [] := by
      rw [ih [] (fun d hd => h d (by simp [hd]))]
      rfl
    split <;> simp [h2]

theorem wordsOf_all_word (w : JSString) (hw : ∀ c ∈ w, isWordChar c = true)
    (hne : w ≠ []) : wordsOf w = [w] := by
  rw [wordsOf, show w = w ++ [] by simp, wordsAux_word_prefix w [] [] hw]
  simp [wordsAux, List.isEmpty_iff, hne]

/-! ### `camelSplit` lemmas -/

theorem camelSplit_mem (l : List ℕ) (x : ℕ) (hx : x ∈ camelSplit l) : x ∈ l ∨ x = 32 := by
  induction l using camelSplit.induct with
  | case1 => simp [camelSplit] at hx
  | case2 c =>
    simp only [camelSplit] at hx
    exact Or.inl hx
  | case3 c1 c2 rest h ih =>
    rw [camelSplit, if_pos h] at hx
    simp only [List.mem_cons] at hx
    rcases hx with rfl | rfl | rfl | h1
    · exact Or.inl (by simp)
    · exact Or.inr rfl
    · exact Or.inl (by simp)
    · rcases ih h1 with h2 | h2
      · exact Or.inl (by simp [h2])
      · exact Or.inr h2
  | case4 c1 c2 rest h ih =>
    rw [camelSplit, if_neg h] at hx
    simp only [List.mem_cons] at hx
    rcases hx with rfl | h1
    · exact Or.inl (by simp)
    · rcases ih h1 with h2 | h2
      · simp only [List.mem_cons] at h2
        exact Or.inl (by simp [h2])
      · exact Or.inr h2

theorem camelSplit_fix (l : List ℕ) (h : ∀ c ∈ l, isUpperAlpha c = false) :
    camelSplit l = l := by
  induction l using camelSplit.induct with
  | case1 => rfl
  | case2 c => rfl
  | case3 c1 c2 rest hcond ih =>
    exfalso
    have h2 := h c2 (by simp)
    simp only [Bool.and_eq_true] at hcond
    rw [h2] at hcond
    exact Bool.false_ne_true hcond.2
  | case4 c1 c2 rest hcond ih =>
    rw [camelSplit, if_neg hcond, ih (fun c hc => h c (by simp at hc ⊢; tauto))]

/-! ### `removeSuffixesAux` lemmas -/

theorem isLegalSuffixWord_nil : isLegalSuffixWord [] = false := by decide

theorem removeSuffixesAux_mem (cs : List ℕ) (cur : JSString) (x : ℕ)
    (hx : x ∈ removeSuffixesAux cs cur) : x ∈ cs ∨ x ∈ cur := by
  induction cs, cur using removeSuffixesAux.induct with
  | case1 cur hsuf =>
    rw [removeSuffixesAux, if_pos hsuf] at hx
    simp at hx
  | case2 cur hsuf =>
    rw [removeSuffixesAux, if_neg hsuf] at hx
    exact Or.inr hx
  | case3 c cs cur hword ih =>
    rw [removeSuffixesAux, if_pos hword] at hx
    rcases ih hx with h | h
    · exact Or.inl (by simp [h])
    · simp only [List.mem_append, List.mem_singleton] at h
      rcases h with h | h
      · exact Or.inr h
      · exact Or.inl (by simp [h])
  | case4 c cs cur hword hsuf hdot ih =>
    rw [removeSuffixesAux, if_neg hword, if_pos hsuf, if_pos hdot] at hx
    rcases ih hx with h | h
    · exact Or.inl (by simp [h])
    · simp at h
  | case5 c cs cur hword hsuf hdot ih =>
    rw [removeSuffixesAux, if_neg hword, if_pos hsuf, if_neg hdot] at hx
    simp only [List.mem_cons] at hx
    rcases hx with rfl | h1
    · exact Or.inl (by simp)
    · rcases ih h1 with h | h
      · exact Or.inl (by simp [h])
      · simp at h
  | case6 c cs cur hword hsuf ih =>
    rw [removeSuffixesAux, if_neg hword, if_neg hsuf] at hx
    simp only [List.mem_append, List.mem_cons] at hx
    rcases hx with h | rfl | h1
    · exact Or.inr h
    · exact Or.inl (by simp)
    · rcases ih h1 with h | h
      · exact Or.inl (by simp [h])
      · simp at h

theorem bool_not_true {b : Bool} (h : ¬b = true) : b = false := by
  cases b
  · rfl
  · exact absurd rfl h

theorem removeSuffixesAux_words_nonsuffix (cs : List ℕ) (cur : JSString)
    (hcs : ∀ c ∈ cs, wordOrSpace c = true)
    (hcur : ∀ c ∈ cur, isWordChar c = true) :
    ∀ w ∈ wordsOf (removeSuffixesAux cs cur), isLegalSuffixWord w = false := by
  induction cs, cur using removeSuffixesAux.induct with
  | case1 cur hsuf =>
    intro w hw
    rw [removeSuffixesAux, if_pos hsuf] at hw
    simp [wordsOf, wordsAux] at hw
  | case2 cur hsuf =>
    intro w hw
    rw [removeSuffixesAux, if_neg hsuf] at hw
    by_cases hne : cur = []
    · subst hne
      simp [wordsOf, wordsAux] at hw
    · rw [wordsOf_all_word cur hcur hne] at hw
      simp only [List.mem_singleton] at hw
      subst hw
      exact bool_not_true hsuf
  | case3 c cs cur hword ih =>
    rw [removeSuffixesAux, if_pos hword]
    exact ih (fun d hd => hcs d (by simp [hd]))
      (fun d hd => by
        rcases List.mem_append.mp hd with h | h
        · exact hcur d h
        · simp only [List.mem_singleton] at h
          exact h ▸ hword)
  | case4 c cs cur hword hsuf hdot ih =>
    exfalso
    have hsp : isSpaceChar c = true :=
      wordOrSpace_not_word (hcs c (by simp)) (bool_not_true hword)
    rw [space_ne_46 hsp] at hdot
    exact Bool.false_ne_true hdot
  | case5 c cs cur hword hsuf hdot ih =>
    intro w hw
    rw [removeSuffixesAux, if_neg hword, if_pos hsuf, if_neg hdot] at hw
    rw [wordsOf, wordsAux_nonword_head (bool_not_true hword)] at hw
    simp only [List.isEmpty_nil, if_true] at hw
    exact ih (fun d hd => hcs d (by simp [hd])) (by simp) w hw
  | case6 c cs cur hword hsuf ih =>
    intro w hw
    rw [removeSuffixesAux, if_neg hword, if_neg hsuf] at hw
    rw [wordsOf, wordsAux_word_prefix cur (c :: removeSuffixesAux cs []) [] hcur,
      List.nil_append, wordsAux_nonword_head (bool_not_true hword)] at hw
    have hrec := ih (fun d hd => hcs d (by simp [hd])) (by simp)
    by_cases hcure : cur.isEmpty
    · rw [if_pos hcure] at hw
      exact hrec w hw
    · rw [if_neg hcure] at hw
      rcases List.mem_cons.mp hw with rfl | h1
      · exact bool_not_true hsuf
      · exact hrec w h1

theorem removeSuffixesAux_eq_self (cs : List ℕ) (cur : JSString)
    (hcur : ∀ c ∈ cur, isWordChar c = true)
    (hw : ∀ w ∈ wordsAux cs cur, isLegalSuffixWord w = false) :
    removeSuffixesAux cs cur = cur ++ cs := by
  induction cs, cur using removeSuffixesAux.induct with
  | case1 cur hsuf =>
    exfalso
    by_cases hne : cur = []
    · subst hne
      rw [isLegalSuffixWord_nil] at hsuf
      exact Bool.false_ne_true hsuf
    · have : cur ∈ wordsAux [] cur := by
        rw [wordsAux]
        simp [List.isEmpty_iff, hne]
      rw [hw cur this] at hsuf
      exact Bool.false_ne_true hsuf
  | case2 cur hsuf =>
    rw [removeSuffixesAux, if_neg hsuf, List.append_nil]
  | case3 c cs cur hword ih =>
    rw [removeSuffixesAux, if_pos hword,
      ih (fun d hd => by
          rcases List.mem_append.mp hd with h | h
          · exact hcur d h
          · simp only [List.mem_singleton] at h
            exact h ▸ hword)
        (fun w hmem => hw w (by rw [wordsAux, if_pos hword]; exact hmem))]
    simp
  | case4 c cs cur hword hsuf hdot ih =>
    exfalso
    by_cases hne : cur = []
    · subst hne
      rw [isLegalSuffixWord_nil] at hsuf
      exact Bool.false_ne_true hsuf
    · have hmem : cur ∈ wordsAux (c :: cs) cur := by
        rw [wordsAux_nonword_head (bool_not_true hword), if_neg (by simp [List.isEmpty_iff, hne])]
        simp
      rw [hw cur hmem] at hsuf
      exact Bool.false_ne_true hsuf
  | case5 c cs cur hword hsuf hdot ih =>
    exfalso
    by_cases hne : cur = []
    · subst hne
      rw [isLegalSuffixWord_nil] at hsuf
      exact Bool.false_ne_true hsuf
    · have hmem : cur ∈ wordsAux (c :: cs) cur := by
        rw [wordsAux_nonword_head (bool_not_true hword), if_neg (by simp [List.isEmpty_iff, hne])]
        simp
      rw [hw cur hmem] at hsuf
      exact Bool.false_ne_true hsuf
  | case6 c cs cur hword hsuf ih =>
    rw [removeSuffixesAux, if_neg hword, if_neg hsuf]
    have hsub : ∀ w ∈ wordsAux cs [], w ∈ wordsAux (c :: cs) cur := by
      intro w hmem
      rw [wordsAux_nonword_head (bool_not_true hword)]
      by_cases hcure : cur.isEmpty
      · rw [if_pos hcure]; exact hmem
      · rw [if_neg hcure]; exact List.mem_cons_of_mem cur hmem
    rw [ih (by simp) (fun w hmem => hw w (hsub w hmem))]
    rfl

theorem removeSuffixes_fix (t : List ℕ)
    (hwords : ∀ w ∈ wordsOf t, isLegalSuffixWord w = false) :
    removeSuffixes t = t := by
  rw [removeSuffixes, removeSuffixesAux_eq_self t [] (by simp) hwords]
  rfl

/-! ### `collapseWs` lemmas -/

theorem collapseWsAux_mem (b : Bool) (l : List ℕ) (x : ℕ)
    (hx : x ∈ collapseWsAux b l) :
    (x ∈ l ∧ isSpaceChar x = false) ∨ x = 32 := by
  induction l generalizing b with
  | nil => simp [collapseWsAux] at hx
  | cons c cs ih =>
    rw [collapseWsAux] at hx
    by_cases hsp : isSpaceChar c = true
    · rw [if_pos hsp] at hx
      cases b with
      | true =>
        simp only [if_true] at hx
        rcases ih true hx with ⟨h1, h2⟩ | h1
        · exact Or.inl ⟨by simp [h1], h2⟩
        · exact Or.inr h1
      | false =>
        simp only [Bool.false_eq_true, if_false, List.mem_cons] at hx
        rcases hx with rfl | hx
        · exact Or.inr rfl
        · rcases ih true hx with ⟨h1, h2⟩ | h1
          · exact Or.inl ⟨by simp [h1], h2⟩
          · exact Or.inr h1
    · rw [if_neg hsp] at hx
      rcases List.mem_cons.mp hx with rfl | hx
      · exact Or.inl ⟨by simp, bool_not_true hsp⟩
      · rcases ih false hx with ⟨h1, h2⟩ | h1
        · exact Or.inl ⟨by simp [h1], h2⟩
        · exact Or.inr h1

theorem collapseWsAux_head_true (l : List ℕ) (h : ℕ)
    (hh : (collapseWsAux true l).head? = some h) : isSpaceChar h = false := by
  induction l with
  | nil => simp [collapseWsAux] at hh
  | cons c cs ih =>
    rw [collapseWsAux] at hh
    by_cases hsp : isSpaceChar c = true
    · rw [if_pos hsp, if_pos rfl] at hh
      exact ih hh
    · rw [if_neg hsp] at hh
      simp only [List.head?_cons, Option.some.injEq] at hh
      exact hh ▸ bool_not_true hsp

theorem collapseWsAux_chain (l : List ℕ) (b : Bool) : noTwoSpaces (collapseWsAux b l) := by
  induction l generalizing b with
  | nil => exact List.chain'_nil
  | cons c cs ih =>
    rw [collapseWsAux]
    by_cases hsp : isSpaceChar c = true
    · rw [if_pos hsp]
      cases b with
      | true => exact ih true
      | false =>
        simp only [Bool.false_eq_true, if_false]
        rw [noTwoSpaces, List.chain'_cons']
        refine ⟨fun y hy => ?_, ih true⟩
        intro ⟨_, hy2⟩
        rw [collapseWsAux_head_true cs y (by simpa using hy)] at hy2
        exact Bool.false_ne_true hy2
    · rw [if_neg hsp]
      rw [noTwoSpaces, List.chain'_cons']
      refine ⟨fun y hy => ?_, ih false⟩
      intro ⟨hy1, _⟩
      rw [bool_not_true hsp] at hy1
      exact Bool.false_ne_true hy1

theorem collapseWsAux_fix (l : List ℕ)
    (h32 : ∀ x ∈ l, isSpaceChar x = true → x = 32)
    (hch : noTwoSpaces l) :
    ((∀ h, l.head? = some h → isSpaceChar h = false) → collapseWsAux true l = l) ∧
    collapseWsAux false l = l := by
  induction l with
  | nil => exact ⟨fun _ => rfl, rfl⟩
  | cons c cs ih =>
    have ihcs := ih (fun x hx => h32 x (by simp [hx])) (List.Chain'.tail hch)
    by_cases hsp : isSpaceChar c = true
    · constructor
      · intro hhead
        have hc := hhead c rfl
        rw [hsp] at hc
        exact absurd hc (by decide)
      · rw [collapseWsAux, if_pos hsp]
        simp only [Bool.false_eq_true, if_false]
        have hhead : ∀ y, cs.head? = some y → isSpaceChar y = false := by
          intro y hy
          cases cs with
          | nil => simp at hy
          | cons d ds =>
            simp only [List.head?_cons, Option.some.injEq] at hy
            rw [noTwoSpaces, List.chain'_cons'] at hch
            have hrel := hch.1 d (by simp)
            rw [← hy]
            by_cases hd : isSpaceChar d = true
            · exact absurd ⟨hsp, hd⟩ hrel
            · exact bool_not_true hd
        rw [ihcs.1 hhead, h32 c (by simp) hsp]
    · constructor
      · intro _
        rw [collapseWsAux, if_neg hsp, ihcs.2]
      · rw [collapseWsAux, if_neg hsp, ihcs.2]

theorem collapseWsAux_words (l : List ℕ) (b : Bool) (cur : JSString)
    (hb : b = true → cur = []) :
    wordsAux (collapseWsAux b l) cur = wordsAux l cur := by
  induction l generalizing b cur with
  | nil => rfl
  | cons c cs ih =>
    rw [collapseWsAux]
    by_cases hsp : isSpaceChar c = true
    · have hnw : isWordChar c = false := space_not_word hsp
      rw [if_pos hsp]
      cases b with
      | true =>
        rw [if_pos rfl, ih true cur hb, hb rfl,
          wordsAux_nonword_head hnw]
        simp
      | false =>
        simp only [Bool.false_eq_true, if_false]
        rw [wordsAux_nonword_head (show isWordChar 32 = false by decide),
          wordsAux_nonword_head hnw, ih true [] (fun _ => rfl)]
    · rw [if_neg hsp]
      by_cases hw : isWordChar c = true
      · rw [wordsAux, if_pos hw, wordsAux, if_pos hw, ih false (cur ++ [c]) (by simp)]
      · rw [wordsAux_nonword_head (bool_not_true hw), wordsAux_nonword_head (bool_not_true hw),
          ih false [] (by simp)]

theorem collapseWs_words (l : List ℕ) : wordsOf (collapseWs l) = wordsOf l :=
  collapseWsAux_words l false [] (by simp)

/-! ### `jsTrim` lemmas -/

theorem dropWhile_space_words (l : List ℕ) :
    wordsOf (l.dropWhile isSpaceChar) = wordsOf l := by
  induction l with
  | nil => rfl
  | cons c cs ih =>
    by_cases hsp : isSpaceChar c = true
    · rw [List.dropWhile_cons_of_pos hsp, ih]
      show wordsOf cs = wordsOf (c :: cs)
      rw [wordsOf, wordsOf, wordsAux_nonword_head (space_not_word hsp)]
      simp
    · rw [List.dropWhile_cons_of_neg (by simp [hsp])]

theorem mem_dropWhile_space {l : List ℕ} {x : ℕ}
    (hx : x ∈ l.dropWhile isSpaceChar) : x ∈ l :=
  (List.dropWhile_sublist _).mem hx

theorem chain_dropWhile_space {l : List ℕ} (h : noTwoSpaces l) :
    noTwoSpaces (l.dropWhile isSpaceChar) := by
  induction l with
  | nil => exact h
  | cons c cs ih =>
    by_cases hsp : isSpaceChar c = true
    · rw [List.dropWhile_cons_of_pos hsp]
      exact ih (List.Chain'.tail h)
    · rwa [List.dropWhile_cons_of_neg (by simp [hsp])]

theorem head_dropWhile_space {l : List ℕ} {h : ℕ}
    (hh : (l.dropWhile isSpaceChar).head? = some h) : isSpaceChar h = false := by
  induction l with
  | nil => simp at hh
  | cons c cs ih =>
    by_cases hsp : isSpaceChar c = true
    · rw [List.dropWhile_cons_of_pos hsp] at hh
      exact ih hh
    · rw [List.dropWhile_cons_of_neg (by simp [hsp])] at hh
      simp only [List.head?_cons, Option.some.injEq] at hh
      rw [← hh]
      exact bool_not_true hsp

theorem dropWhile_space_fix {l : List ℕ}
    (h : ∀ y, l.head? = some y → isSpaceChar y = false) :
    l.dropWhile isSpaceChar = l := by
  cases l with
  | nil => rfl
  | cons c cs => rw [List.dropWhile_cons_of_neg (by simp [h c rfl])]

theorem trimRight_eq_nil {l : List ℕ} (h : trimRight l = []) :
    ∀ c ∈ l, isSpaceChar c = true := by
  induction l with
  | nil => simp
  | cons c cs ih =>
    rw [trimRight] at h
    by_cases hr : (trimRight cs).isEmpty
    · rw [if_pos hr] at h
      by_cases hsp : isSpaceChar c = true
      · intro d hd
        rcases List.mem_cons.mp hd with rfl | hd
        · exact hsp
        · exact ih (List.isEmpty_iff.mp hr) d hd
      · rw [if_neg hsp] at h
        exact absurd h (by simp)
    · rw [if_neg hr] at h
      exact absurd h (by simp)

theorem trimRight_mem {l : List ℕ} {x : ℕ} (hx : x ∈ trimRight l) : x ∈ l := by
  induction l with
  | nil => simp [trimRight] at hx
  | cons c cs ih =>
    rw [trimRight] at hx
    by_cases hr : (trimRight cs).isEmpty
    · rw [if_pos hr] at hx
      by_cases hsp : isSpaceChar c = true
      · rw [if_pos hsp] at hx
        simp at hx
      · rw [if_neg hsp] at hx
        simp only [List.mem_singleton] at hx
        simp [hx]
    · rw [if_neg hr] at hx
      rcases List.mem_cons.mp hx with rfl | hx
      · simp
      · simp [ih hx]

theorem wordsAux_trimRight (l : List ℕ) : ∀ cur, wordsAux (trimRight l) cur = wordsAux l cur := by
  induction l with
  | nil => intro cur; rfl
  | cons c cs ih =>
    intro cur
    rw [trimRight]
    by_cases hr : (trimRight cs).isEmpty
    · have hsall : ∀ d ∈ cs, isSpaceChar d = true := trimRight_eq_nil (List.isEmpty_iff.mp hr)
      have hnall : ∀ d ∈ cs, isWordChar d = false := fun d hd => space_not_word (hsall d hd)
      rw [if_pos hr]
      by_cases hsp : isSpaceChar c = true
      · rw [if_pos hsp, wordsAux_nonword_head (space_not_word hsp),
          wordsAux_all_nonword cs [] hnall]
        cases cur <;> simp [wordsAux]
      · rw [if_neg hsp]
        by_cases hw : isWordChar c = true
        · rw [wordsAux_word_head hw, wordsAux_word_head hw,
            wordsAux_all_nonword cs (cur ++ [c]) hnall]
          simp [wordsAux]
        · rw [wordsAux_nonword_head (bool_not_true hw), wordsAux_nonword_head (bool_not_true hw),
            wordsAux_all_nonword cs [] hnall]
          simp [wordsAux]
    · rw [if_neg hr]
      by_cases hw : isWordChar c = true
      · rw [wordsAux_word_head hw, wordsAux_word_head hw, ih]
      · rw [wordsAux_nonword_head (bool_not_true hw), wordsAux_nonword_head (bool_not_true hw), ih]

theorem trimRight_head? {l : List ℕ} {h : ℕ}
    (hh : (trimRight l).head? = some h) : l.head? = some h := by
  induction l with
  | nil => simp [trimRight] at hh
  | cons c cs ih =>
    rw [trimRight] at hh
    by_cases hr : (trimRight cs).isEmpty
    · rw [if_pos hr] at hh
      by_cases hsp : isSpaceChar c = true
      · rw [if_pos hsp] at hh
        simp at hh
      · rw [if_neg hsp] at hh
        simpa using hh
    · rw [if_neg hr] at hh
      simpa using hh

theorem trimRight_chain {l : List ℕ} (h : noTwoSpaces l) : noTwoSpaces (trimRight l) := by
  induction l with
  | nil => exact h
  | cons c cs ih =>
    rw [trimRight]
    by_cases hr : (trimRight cs).isEmpty
    · rw [if_pos hr]
      by_cases hsp : isSpaceChar c = true
      · rw [if_pos hsp]
        exact List.chain'_nil
      · rw [if_neg hsp]
        exact List.chain'_singleton c
    · rw [if_neg hr]
      rw [noTwoSpaces, List.chain'_cons']
      refine ⟨fun y hy => ?_, ih (List.Chain'.tail h)⟩
      have hcy : cs.head? = some y := trimRight_head? (by simpa using hy)
      rw [noTwoSpaces, List.chain'_cons'] at h
      exact h.1 y (by simp [hcy])

theorem trimRight_getLast_not_space (l : List ℕ) :
    ∀ h, (trimRight l).getLast? = some h → isSpaceChar h = false := by
  induction l with
  | nil => intro h hh; simp [trimRight] at hh
  | cons c cs ih =>
    intro h hh
    rw [trimRight] at hh
    by_cases hr : (trimRight cs).isEmpty
    · rw [if_pos hr] at hh
      by_cases hsp : isSpaceChar c = true
      · rw [if_pos hsp] at hh
        simp at hh
      · rw [if_neg hsp] at hh
        simp only [List.getLast?_singleton, Option.some.injEq] at hh
        rw [← hh]
        exact bool_not_true hsp
    · rw [if_neg hr] at hh
      have hne : trimRight cs ≠ [] := fun hnil => hr (by simp [hnil])
      rcases List.exists_cons_of_ne_nil hne with ⟨d, ds, hds⟩
      rw [hds, List.getLast?_cons_cons] at hh
      exact ih h (by rw [hds]; exact hh)

theorem trimRight_fix {l : List ℕ}
    (h : ∀ y, l.getLast? = some y → isSpaceChar y = false) : trimRight l = l := by
  induction l with
  | nil => rfl
  | cons c cs ih =>
    rw [trimRight]
    cases cs with
    | nil =>
      rw [show trimRight ([] : List ℕ) = [] from rfl]
      simp only [List.isEmpty_nil, if_true]
      rw [if_neg (by simp [h c (by simp)])]
    | cons d ds =>
      have hcs2 : trimRight (d :: ds) = d :: ds :=
        ih (fun y hy => h y (by rw [List.getLast?_cons_cons]; exact hy))
      rw [hcs2]
      simp

/-! ### Lowercasing lemmas -/

theorem map_toLower_idem (w : JSString) :
    (w.map toLowerCode).map toLowerCode = w.map toLowerCode := by
  rw [List.map_map]
  exact List.map_congr_left fun c _ => by simp [Function.comp, toLowerCode_idem]

theorem isLegalSuffixWord_map_lower (w : JSString) :
    isLegalSuffixWord (w.map toLowerCode) = isLegalSuffixWord w := by
  rw [isLegalSuffixWord, isLegalSuffixWord, map_toLower_idem]

theorem map_lower_fix (l : JSString) (h : ∀ c ∈ l, isUpperAlpha c = false) :
    l.map toLowerCode = l := by
  have h2 : l.map toLowerCode = l.map id :=
    List.map_congr_left fun c hc => toLowerCode_fix (h c hc)
  rw [h2, List.map_id]

theorem wordOrSpace_toLower (c : ℕ) : wordOrSpace (toLowerCode c) = wordOrSpace c := by
  rw [wordOrSpace, wordOrSpace, toLowerCode_word, toLowerCode_space]

theorem wordsAux_map_lower (l : List ℕ) :
    ∀ cur, wordsAux (l.map toLowerCode) (cur.map toLowerCode) =
      (wordsAux l cur).map (List.map toLowerCode) := by
  induction l with
  | nil =>
    intro cur
    cases cur <;> simp [wordsAux]
  | cons c cs ih =>
    intro cur
    by_cases hw : isWordChar c = true
    · rw [List.map_cons, wordsAux_word_head (by rw [toLowerCode_word]; exact hw),
        wordsAux_word_head hw,
        show List.map toLowerCode cur ++ [toLowerCode c] =
          List.map toLowerCode (cur ++ [c]) by simp]
      exact ih (cur ++ [c])
    · rw [List.map_cons,
        wordsAux_nonword_head (by rw [toLowerCode_word]; exact bool_not_true hw),
        wordsAux_nonword_head (bool_not_true hw)]
      have hemp : (cur.map toLowerCode).isEmpty = cur.isEmpty := by cases cur <;> simp
      have ihnil := ih []
      simp only [List.map_nil] at ihnil
      rw [hemp]
      by_cases hcur : cur.isEmpty
      · rw [if_pos hcur, if_pos hcur]
        exact ihnil
      · rw [if_neg hcur, if_neg hcur, ihnil, List.map_cons]

theorem wordsOf_map_lower (l : List ℕ) :
    wordsOf (l.map toLowerCode) = (wordsOf l).map (List.map toLowerCode) := by
  simpa [wordsOf] using wordsAux_map_lower l []

theorem noTwoSpaces_map_lower {l : List ℕ} (h : noTwoSpaces l) :
    noTwoSpaces (l.map toLowerCode) := by
  rw [noTwoSpaces, List.chain'_map]
  refine List.Chain'.imp ?_ h
  intro a b hab
  rw [toLowerCode_space, toLowerCode_space]
  exact hab

/-! ### Shape of a normalized company name, and the fixpoint argument -/

theorem normalizeCompanyName_shape (s : JSString)
    (hs : ∀ c ∈ s, wordOrSpace c = true) :
    (∀ c ∈ normalizeCompanyName s, isUpperAlpha c = false) ∧
    (∀ c ∈ normalizeCompanyName s, wordOrSpace c = true) ∧
    (∀ c ∈ normalizeCompanyName s, isSpaceChar c = true → c = 32) ∧
    noTwoSpaces (normalizeCompanyName s) ∧
    (∀ y, (normalizeCompanyName s).head? = some y → isSpaceChar y = false) ∧
    (∀ y, (normalizeCompanyName s).getLast? = some y → isSpaceChar y = false) ∧
    (∀ w ∈ wordsOf (normalizeCompanyName s), isLegalSuffixWord w = false) := by
  have hcamel : ∀ c ∈ camelSplit s, wordOrSpace c = true := by
    intro c hc
    rcases camelSplit_mem s c hc with h | rfl
    · exact hs c h
    · decide
  have hu : ∀ c ∈ removeSuffixes (camelSplit s), wordOrSpace c = true := by
    intro c hc
    rcases removeSuffixesAux_mem (camelSplit s) [] c hc with h | h
    · exact hcamel c h
    · simp at h
  have hufilter : (removeSuffixes (camelSplit s)).filter wordOrSpace =
      removeSuffixes (camelSplit s) := List.filter_eq_self.mpr hu
  have hn : normalizeCompanyName s =
      (jsTrim (collapseWs (removeSuffixes (camelSplit s)))).map toLowerCode := by
    rw [normalizeCompanyName, hufilter]
  have hvmem : ∀ x ∈ collapseWs (removeSuffixes (camelSplit s)),
      (x ∈ removeSuffixes (camelSplit s) ∧ isSpaceChar x = false) ∨ x = 32 :=
    fun x hx => collapseWsAux_mem false _ x hx
  have hwmem : ∀ x ∈ jsTrim (collapseWs (removeSuffixes (camelSplit s))),
      x ∈ collapseWs (removeSuffixes (camelSplit s)) :=
    fun x hx => mem_dropWhile_space (trimRight_mem hx)
  have hwchain : noTwoSpaces (jsTrim (collapseWs (removeSuffixes (camelSplit s)))) :=
    trimRight_chain (chain_dropWhile_space (collapseWsAux_chain _ false))
  refine ⟨?_, ?_, ?_, ?_, ?_, ?_, ?_⟩
  · intro c hc
    rw [hn] at hc
    obtain ⟨d, _, rfl⟩ := List.mem_map.mp hc
    exact toLowerCode_not_upper d
  · intro c hc
    rw [hn] at hc
    obtain ⟨d, hd, rfl⟩ := List.mem_map.mp hc
    rw [wordOrSpace_toLower]
    rcases hvmem d (hwmem d hd) with ⟨h1, _⟩ | rfl
    · exact hu d h1
    · decide
  · intro c hc hsp
    rw [hn] at hc
    obtain ⟨d, hd, rfl⟩ := List.mem_map.mp hc
    rw [toLowerCode_space] at hsp
    rcases hvmem d (hwmem d hd) with ⟨_, h2⟩ | rfl
    · rw [h2] at hsp
      exact absurd hsp (by decide)
    · decide
  · rw [hn]
    exact noTwoSpaces_map_lower hwchain
  · intro y hy
    rw [hn, List.head?_map] at hy
    obtain ⟨y0, hy0, hy1⟩ := Option.map_eq_some'.mp hy
    rw [← hy1, toLowerCode_space]
    exact head_dropWhile_space (trimRight_head? hy0)
  · intro y hy
    rw [hn, List.getLast?_map] at hy
    obtain ⟨y0, hy0, hy1⟩ := Option.map_eq_some'.mp hy
    rw [← hy1, toLowerCode_space]
    exact trimRight_getLast_not_space _ y0 hy0
  · intro w hw
    rw [hn, wordsOf_map_lower] at hw
    obtain ⟨w0, hw0, rfl⟩ := List.mem_map.mp hw
    rw [isLegalSuffixWord_map_lower]
    have hwu : w0 ∈ wordsOf (removeSuffixes (camelSplit s)) := by
      have e1 : wordsOf (jsTrim (collapseWs (removeSuffixes (camelSplit s)))) =
          wordsOf (collapseWs (removeSuffixes (camelSplit s))) := by
        rw [jsTrim, wordsOf, wordsAux_trimRight, ← wordsOf, dropWhile_space_words]
      rw [e1, collapseWs_words] at hw0
      exact hw0
    exact removeSuffixesAux_words_nonsuffix (camelSplit s) [] hcamel (by simp) w0 hwu

theorem normalizeCompanyName_fix (t : JSString)
    (h1 : ∀ c ∈ t, isUpperAlpha c = false)
    (h2 : ∀ c ∈ t, wordOrSpace c = true)
    (h3 : ∀ c ∈ t, isSpaceChar c = true → c = 32)
    (h4 : noTwoSpaces t)
    (h5 : ∀ y, t.head? = some y → isSpaceChar y = false)
    (h6 : ∀ y, t.getLast? = some y → isSpaceChar y = false)
    (h7 : ∀ w ∈ wordsOf t, isLegalSuffixWord w = false) :
    normalizeCompanyName t = t := by
  rw [normalizeCompanyName, camelSplit_fix t h1, removeSuffixes_fix t h7,
    List.filter_eq_self.mpr h2,
    show collapseWs t = t from (collapseWsAux_fix t h3 h4).2,
    jsTrim, dropWhile_space_fix h5, trimRight_fix h6]
  exact map_lower_fix t h1

/-- C5 counterexample: `normalizeCompanyName` is not idempotent. On "c-o",
the first pass deletes the hyphen and produces "co", and the second pass
strips "co" as a legal company suffix, yielding the empty string. -/
theorem normalizeCompanyName_not_idempotent :
    normalizeCompanyName (normalizeCompanyName (strChars "c-o")) ≠
      normalizeCompanyName (strChars "c-o") := by decide

/-- C5 (amended): `normalizeCompanyName` is idempotent on every string whose
characters are alphanumerics, underscores or whitespace (the failure requires
a removed punctuation character to glue word fragments into a new legal
suffix, as in the counterexample). -/
theorem normalizeCompanyName_idempotent_on_word_space (s : JSString)
    (hs : ∀ c ∈ s, wordOrSpace c = true) :
    normalizeCompanyName (normalizeCompanyName s) = normalizeCompanyName s := by
  obtain ⟨h1, h2, h3, h4, h5, h6, h7⟩ := normalizeCompanyName_shape s hs
  exact normalizeCompanyName_fix _ h1 h2 h3 h4 h5 h6 h7

/-- Witness for the amended C5 theorem at a concrete name. -/
theorem normalizeCompanyName_idempotent_witness :
    normalizeCompanyName (normalizeCompanyName (strChars "Tata Motors Inc")) =
      normalizeCompanyName (strChars "Tata Motors Inc") :=
  normalizeCompanyName_idempotent_on_word_space (strChars "Tata Motors Inc") (by decide)

/-! ### Confidence bounds for company-name matching -/

theorem overlapRatioOf_nonneg (userWords aiWords : List JSString) :
    0 ≤ overlapRatioOf userWords aiWords := by
  rw [overlapRatioOf]
  split
  · positivity
  · exact le_refl 0

theorem shortNamePairCheck_cases {u a : JSString} {c : ℚ}
    (h : shortNamePairCheck u a = some c) : c = 95/100 ∨ c = 85/100 := by
  rw [shortNamePairCheck] at h
  split_ifs at h
  · simp only [Option.some.injEq] at h
    exact Or.inl h.symm
  · simp only [Option.some.injEq] at h
    exact Or.inr h.symm

theorem checkShortNameMatch_bounds (userWords aiWords : List JSString) :
    0 ≤ (checkShortNameMatch userWords aiWords).2 ∧
    (checkShortNameMatch userWords aiWords).2 ≤ 1 := by
  rw [checkShortNameMatch]
  cases hf : userWords.findSome?
      (fun uw => aiWords.findSome? (fun aw => shortNamePairCheck uw aw)) with
  | none => exact ⟨le_refl 0, by norm_num⟩
  | some conf =>
    obtain ⟨u2, _, hf2⟩ := List.exists_of_findSome?_eq_some hf
    obtain ⟨a2, _, hp⟩ := List.exists_of_findSome?_eq_some hf2
    rcases shortNamePairCheck_cases hp with rfl | rfl <;>
      exact ⟨by norm_num, by norm_num⟩

/-- C6: for every pair of input strings, `validateCompanyNameMatch` returns a
`NameMatchResult` whose confidence is a rational in `[0, 1]`; in this exact
embedding no branch can produce NaN (the one division is guarded by
`minWords > 0`), and the function is total, so it terminates for all
inputs. -/
theorem validateCompanyNameMatch_confidence_in_unit (u a : JSString) :
    0 ≤ (validateCompanyNameMatch u a).confidence ∧
    (validateCompanyNameMatch u a).confidence ≤ 1 := by
  rw [validateCompanyNameMatch]
  by_cases h1 : normalizeCompanyName u = normalizeCompanyName a
  · rw [if_pos h1]
    exact ⟨by norm_num, by norm_num⟩
  rw [if_neg h1]
  by_cases h2 : (7/10 : ℚ) ≤ overlapRatioOf (splitWords (normalizeCompanyName u))
      (splitWords (normalizeCompanyName a))
  · rw [if_pos h2]
    constructor
    · show (0:ℚ) ≤ min (overlapRatioOf _ _ + 1/10) 1
      have h0 := overlapRatioOf_nonneg (splitWords (normalizeCompanyName u))
        (splitWords (normalizeCompanyName a))
      exact le_min (by linarith) (by norm_num)
    · show min (overlapRatioOf _ _ + 1/10) 1 ≤ (1:ℚ)
      exact min_le_right _ _
  rw [if_neg h2]
  by_cases h3 : (checkShortNameMatch (splitWords (normalizeCompanyName u))
      (splitWords (normalizeCompanyName a))).1 = true
  · rw [if_pos h3]
    exact checkShortNameMatch_bounds _ _
  rw [if_neg h3]
  by_cases h4 : checkAbbreviationMatch (splitWords (normalizeCompanyName u))
      (splitWords (normalizeCompanyName a)) = true
  · rw [if_pos h4]
    exact ⟨by norm_num, by norm_num⟩
  rw [if_neg h4]
  by_cases h5 : (jsIncludes (normalizeCompanyName a) (normalizeCompanyName u) ||
      jsIncludes (normalizeCompanyName u) (normalizeCompanyName a)) = true
  · rw [if_pos h5]
    exact ⟨by norm_num, by norm_num⟩
  · rw [if_neg h5]
    refine ⟨overlapRatioOf_nonneg _ _, ?_⟩
    show overlapRatioOf _ _ ≤ (1:ℚ)
    have hlt := lt_of_not_le h2
    linarith

/-! ### Merge lemmas -/

theorem mergeStep_hit (m : MergedRecord) (metric : Metric) (best : ExtractedNumber)
    (rest : List ExtractedNumber) (hf : falsy (m.values metric) = true) :
    (mergeStep m (metric, best :: rest)).values metric = some best.value ∧
    (mergeStep m (metric, best :: rest)).conf metric = some best.confidence ∧
    (mergeStep m (metric, best :: rest)).evid metric = some best.evidenceSnippet := by
  simp only [mergeStep]
  rw [if_pos hf]
  refine ⟨?_, ?_, ?_⟩ <;> simp

theorem mergeStep_miss (m : MergedRecord) (metric : Metric) (cands : List ExtractedNumber)
    (hf : falsy (m.values metric) = false) : mergeStep m (metric, cands) = m := by
  simp only [mergeStep]
  cases cands with
  | nil => rfl
  | cons b r => exact if_neg (by simp [hf])

theorem mergeStep_other (m : MergedRecord) (entry : Metric × List ExtractedNumber)
    (n : Metric) (hne : entry.1 ≠ n) :
    (mergeStep m entry).values n = m.values n ∧
    (mergeStep m entry).conf n = m.conf n ∧
    (mergeStep m entry).evid n = m.evid n := by
  obtain ⟨em, el⟩ := entry
  simp only at hne
  cases el with
  | nil => exact ⟨rfl, rfl, rfl⟩
  | cons best rest =>
    simp only [mergeStep]
    by_cases hf : falsy (m.values em) = true
    · rw [if_pos hf]
      have hnm : ¬ n = em := fun h => hne h.symm
      exact ⟨by simp [hnm], by simp [hnm], by simp [hnm]⟩
    · rw [if_neg hf]
      exact ⟨rfl, rfl, rfl⟩

theorem merge_foldl_other (hm : List (Metric × List ExtractedNumber))
    (ai : MergedRecord) (metric : Metric) (h : ∀ p ∈ hm, p.1 ≠ metric) :
    (hm.foldl mergeStep ai).values metric = ai.values metric ∧
    (hm.foldl mergeStep ai).conf metric = ai.conf metric ∧
    (hm.foldl mergeStep ai).evid metric = ai.evid metric := by
  induction hm generalizing ai with
  | nil => exact ⟨rfl, rfl, rfl⟩
  | cons p ps ih =>
    rw [List.foldl_cons]
    have hstep := mergeStep_other ai p metric (h p (by simp))
    have hrec := ih (mergeStep ai p) (fun q hq => h q (by simp [hq]))
    exact ⟨hrec.1.trans hstep.1, hrec.2.1.trans hstep.2.1, hrec.2.2.trans hstep.2.2⟩

/-- C3 counterexample: with candidate list [confidence 0.3 value 5,
confidence 0.9 value 7] (not sorted by confidence) and a falsy AI value, the
merge installs the first candidate's value 5, not the highest-confidence
candidate's value 7 — the claim quantified over every candidates map is
false. -/
theorem mergeExtractionResults_not_highest :
    falsy (emptyAIRecord.values Metric.revenue) = true ∧
    (highestConfidenceCandidate [lowCand, highCand]).map (fun c => c.value) = some 7 ∧
    (mergeExtractionResults [(Metric.revenue, [lowCand, highCand])] emptyAIRecord).values
      Metric.revenue = some 5 := by
  refine ⟨rfl, ?_, ?_⟩
  · rw [highestConfidenceCandidate, highestConfidenceCandidate, highestConfidenceCandidate]
    norm_num [lowCand, highCand]
  · show (mergeStep emptyAIRecord (Metric.revenue, [lowCand, highCand])).values Metric.revenue
      = some 5
    have h := (mergeStep_hit emptyAIRecord Metric.revenue lowCand [highCand] rfl).1
    rw [h]
    rfl

/-- C3 (amended): for a heuristic-candidates map with distinct metric keys
whose candidate lists are sorted in non-increasing confidence (as
`findNumbersForMetric` produces them), the AI value is kept when it is
present, non-null and non-zero; otherwise the first candidate — which has
maximal confidence — supplies the value, with its confidence and evidence as
sibling keys; metrics without heuristic candidates keep the AI value. -/
theorem mergeExtractionResults_spec :
    (∀ (hm : List (Metric × List ExtractedNumber)) (ai : MergedRecord)
      (metric : Metric) (cands : List ExtractedNumber)
      (best : ExtractedNumber) (rest : List ExtractedNumber),
      List.Pairwise (fun e f : Metric × List ExtractedNumber => e.1 ≠ f.1) hm →
      (metric, cands) ∈ hm →
      List.Pairwise (fun x y : ExtractedNumber => y.confidence ≤ x.confidence) cands →
      cands = best :: rest →
      ((falsy (ai.values metric) = true →
        (mergeExtractionResults hm ai).values metric = some best.value ∧
        (mergeExtractionResults hm ai).conf metric = some best.confidence ∧
        (mergeExtractionResults hm ai).evid metric = some best.evidenceSnippet ∧
        ∀ c ∈ cands, c.confidence ≤ best.confidence) ∧
      (falsy (ai.values metric) = false →
        (mergeExtractionResults hm ai).values metric = ai.values metric))) ∧
    (∀ (hm : List (Metric × List ExtractedNumber)) (ai : MergedRecord) (metric : Metric),
      (∀ p ∈ hm, p.1 ≠ metric) →
      (mergeExtractionResults hm ai).values metric = ai.values metric) := by
  constructor
  · intro hm ai metric cands best rest hkeys hmem hsorted hcands
    obtain ⟨pre, post, rfl⟩ := List.append_of_mem hmem
    rw [List.pairwise_append] at hkeys
    have hpre : ∀ p ∈ pre, p.1 ≠ metric := fun p hp =>
      hkeys.2.2 p hp (metric, cands) (by simp)
    have hpost : ∀ p ∈ post, p.1 ≠ metric := by
      intro p hp
      have hne := (List.pairwise_cons.mp hkeys.2.1).1 p hp
      exact fun h => hne (h ▸ rfl)
    have hmid := merge_foldl_other pre ai metric hpre
    rw [mergeExtractionResults, List.foldl_append, List.foldl_cons]
    have hmax : ∀ c ∈ cands, c.confidence ≤ best.confidence := by
      intro c hc
      rw [hcands] at hc
      rcases List.mem_cons.mp hc with rfl | hc2
      · exact le_refl _
      · exact (List.pairwise_cons.mp (hcands ▸ hsorted)).1 c hc2
    subst hcands
    constructor
    · intro hfalsy
      have hfm : falsy ((pre.foldl mergeStep ai).values metric) = true := by
        rw [hmid.1]
        exact hfalsy
      have hs := mergeStep_hit (pre.foldl mergeStep ai) metric best rest hfm
      have hfinal := merge_foldl_other post
        (mergeStep (pre.foldl mergeStep ai) (metric, best :: rest)) metric hpost
      exact ⟨hfinal.1.trans hs.1, hfinal.2.1.trans hs.2.1, hfinal.2.2.trans hs.2.2, hmax⟩
    · intro hfalsy
      have hfm : falsy ((pre.foldl mergeStep ai).values metric) = false := by
        rw [hmid.1]
        exact hfalsy
      rw [mergeStep_miss (pre.foldl mergeStep ai) metric (best :: rest) hfm]
      have hfinal := merge_foldl_other post (pre.foldl mergeStep ai) metric hpost
      exact hfinal.1.trans hmid.1
  · intro hm ai metric h
    exact (merge_foldl_other hm ai metric h).1

/-- Witness for the amended C3 theorem: a sorted two-candidate list with an
absent AI value takes the first (highest-confidence) candidate's value. -/
theorem mergeExtractionResults_spec_witness :
    (mergeExtractionResults [(Metric.revenue, [highCand, lowCand])] emptyAIRecord).values
      Metric.revenue = some (7:ℚ) := by
  have h := (mergeExtractionResults_spec.1 [(Metric.revenue, [highCand, lowCand])]
    emptyAIRecord Metric.revenue [highCand, lowCand] highCand [lowCand]
    (by simp) (by simp)
    (by
      refine List.pairwise_cons.mpr ⟨?_, by simp⟩
      intro c hc
      rw [List.mem_singleton.mp hc]
      norm_num [lowCand, highCand])
    rfl).1 rfl
  exact h.1

/-! ### Association-map lemmas -/

theorem mapLookup_mapSet_self {β : Type} (l : List (JSString × β)) (k : JSString) (v : β) :
    mapLookup (mapSet l k v) k = some v := by
  induction l with
  | nil => simp [mapSet, mapLookup]
  | cons p rest ih =>
    obtain ⟨k2, v2⟩ := p
    rw [mapSet]
    by_cases hk : k2 = k
    · rw [if_pos hk, mapLookup, if_pos hk]
    · rw [if_neg hk, mapLookup, if_neg hk]
      exact ih

theorem mapLookup_mem {β : Type} {l : List (JSString × β)} {k : JSString} {v : β}
    (h : mapLookup l k = some v) : (k, v) ∈ l := by
  induction l with
  | nil => simp [mapLookup] at h
  | cons p rest ih =>
    obtain ⟨k2, v2⟩ := p
    rw [mapLookup] at h
    by_cases hk : k2 = k
    · rw [if_pos hk] at h
      simp only [Option.some.injEq] at h
      subst hk
      rw [h]
      simp
    · rw [if_neg hk] at h
      exact List.mem_cons_of_mem _ (ih h)

theorem mapLookup_eq_none_iff {β : Type} {l : List (JSString × β)} {k : JSString} :
    mapLookup l k = none ↔ k ∉ l.map Prod.fst := by
  induction l with
  | nil => simp [mapLookup]
  | cons p rest ih =>
    obtain ⟨k2, v2⟩ := p
    rw [mapLookup]
    by_cases hk : k2 = k
    · rw [if_pos hk]
      simp [hk]
    · rw [if_neg hk]
      simp [hk, ih, Ne.symm hk]

theorem mapDelete_cons {β : Type} (p : JSString × β) (rest : List (JSString × β))
    (k : JSString) :
    mapDelete (p :: rest) k =
      if p.1 = k then mapDelete rest k else p :: mapDelete rest k := by
  rw [mapDelete, List.filter_cons]
  by_cases hk : p.1 = k
  · rw [if_neg (by simp [hk]), if_pos hk]
    rfl
  · rw [if_pos (by simp [hk]), if_neg hk]
    rfl

theorem mapLookup_mapDelete_self {β : Type} (l : List (JSString × β)) (k : JSString) :
    mapLookup (mapDelete l k) k = none := by
  induction l with
  | nil => rfl
  | cons p rest ih =>
    rw [mapDelete_cons]
    by_cases hk : p.1 = k
    · rw [if_pos hk]
      exact ih
    · rw [if_neg hk, mapLookup, if_neg hk]
      exact ih

theorem mapDelete_map_fst {β : Type} (l : List (JSString × β)) (k : JSString) :
    (mapDelete l k).map Prod.fst = (l.map Prod.fst).filter (fun x => !(x == k)) := by
  induction l with
  | nil => rfl
  | cons p rest ih =>
    rw [mapDelete_cons, List.map_cons, List.filter_cons]
    by_cases hk : p.1 = k
    · rw [if_pos hk, if_neg (by simp [hk])]
      exact ih
    · rw [if_neg hk, if_pos (by simp [hk]), List.map_cons, ih]

theorem mem_mapDelete {β : Type} {l : List (JSString × β)} {k : JSString}
    {p : JSString × β} (hp : p ∈ mapDelete l k) : p ∈ l :=
  List.mem_of_mem_filter hp

theorem mapDelete_snd_nodup {β : Type} {l : List (JSString × β)} (k : JSString)
    (h : (l.map Prod.snd).Nodup) : ((mapDelete l k).map Prod.snd).Nodup :=
  h.sublist (List.Sublist.map Prod.snd (List.filter_sublist l))

theorem filter_key_length {k : JSString} (keys : List JSString)
    (hnd : keys.Nodup) (hk : k ∈ keys) :
    (keys.filter (fun x => !(x == k))).length + 1 = keys.length := by
  induction keys with
  | nil => simp at hk
  | cons a as ih =>
    rw [List.filter_cons]
    by_cases ha : a = k
    · rw [if_neg (by simp [ha])]
      have hknotin : k ∉ as := ha ▸ (List.nodup_cons.mp hnd).1
      rw [List.filter_eq_self.mpr (fun x hx => by
        simp only [Bool.not_eq_true', beq_eq_false_iff_ne, ne_eq]
        exact fun hxk => hknotin (hxk ▸ hx))]
      rfl
    · rw [if_pos (by simp [ha])]
      have hkas : k ∈ as := by
        rcases List.mem_cons.mp hk with h | h
        · exact absurd h.symm ha
        · exact h
      have hih := ih (List.nodup_cons.mp hnd).2 hkas
      simp only [List.length_cons]
      omega

theorem mapDelete_length {β : Type} (l : List (JSString × β)) (k : JSString)
    (hnd : (l.map Prod.fst).Nodup) (hk : k ∈ l.map Prod.fst) :
    (mapDelete l k).length + 1 = l.length := by
  have h1 : (mapDelete l k).length = ((mapDelete l k).map Prod.fst).length :=
    (List.length_map _ _).symm
  rw [h1, mapDelete_map_fst, filter_key_length (l.map Prod.fst) hnd hk, List.length_map]

theorem mapSet_map_fst_mem {β : Type} (l : List (JSString × β)) (k : JSString) (v : β)
    (h : k ∈ l.map Prod.fst) : (mapSet l k v).map Prod.fst = l.map Prod.fst := by
  induction l with
  | nil => simp at h
  | cons p rest ih =>
    obtain ⟨k2, v2⟩ := p
    rw [mapSet]
    by_cases hk : k2 = k
    · rw [if_pos hk]
      simp
    · rw [if_neg hk, List.map_cons, List.map_cons, ih]
      rcases List.mem_cons.mp h with h2 | h2
      · exact absurd h2.symm hk
      · exact h2

theorem mapSet_map_fst_not_mem {β : Type} (l : List (JSString × β)) (k : JSString) (v : β)
    (h : k ∉ l.map Prod.fst) : (mapSet l k v).map Prod.fst = l.map Prod.fst ++ [k] := by
  induction l with
  | nil => rfl
  | cons p rest ih =>
    obtain ⟨k2, v2⟩ := p
    rw [mapSet]
    by_cases hk : k2 = k
    · exact absurd (hk ▸ (by simp : k2 ∈ ((k2, v2) :: rest).map Prod.fst)) h
    · rw [if_neg hk, List.map_cons, List.map_cons, ih (fun h2 => h (by simp [h2]))]
      rfl

theorem mem_mapSet {β : Type} {l : List (JSString × β)} {k : JSString} {v : β}
    {p : JSString × β} (hp : p ∈ mapSet l k v) : p ∈ l ∨ p.2 = v := by
  induction l with
  | nil =>
    rw [mapSet] at hp
    simp only [List.mem_singleton] at hp
    exact Or.inr (by rw [hp])
  | cons q rest ih =>
    obtain ⟨k2, v2⟩ := q
    rw [mapSet] at hp
    by_cases hk : k2 = k
    · rw [if_pos hk] at hp
      rcases List.mem_cons.mp hp with rfl | h
      · exact Or.inr rfl
      · exact Or.inl (List.mem_cons_of_mem _ h)
    · rw [if_neg hk] at hp
      rcases List.mem_cons.mp hp with rfl | h
      · exact Or.inl (by simp)
      · rcases ih h with h2 | h2
        · exact Or.inl (List.mem_cons_of_mem _ h2)
        · exact Or.inr h2

theorem mapSet_snd_nodup {β : Type} {l : List (JSString × β)} {k : JSString} {v : β}
    [DecidableEq β] (hlt : ∀ p ∈ l, p.2 ≠ v) (hnd : (l.map Prod.snd).Nodup) :
    ((mapSet l k v).map Prod.snd).Nodup := by
  induction l with
  | nil => simp [mapSet]
  | cons q rest ih =>
    obtain ⟨k2, v2⟩ := q
    rw [mapSet]
    by_cases hk : k2 = k
    · rw [if_pos hk, List.map_cons, List.nodup_cons]
      refine ⟨fun hmem => ?_, (List.nodup_cons.mp (by simpa using hnd)).2⟩
      obtain ⟨p, hp, hp2⟩ := List.mem_map.mp hmem
      exact hlt p (List.mem_cons_of_mem _ hp) hp2
    · rw [if_neg hk, List.map_cons, List.nodup_cons]
      constructor
      · intro hmem
        obtain ⟨p, hp, hp2⟩ := List.mem_map.mp hmem
        rcases mem_mapSet hp with h2 | h2
        · exact (List.nodup_cons.mp (by simpa using hnd)).1
            (List.mem_map.mpr ⟨p, h2, hp2⟩)
        · exact hlt (k2, v2) (by simp) (hp2.symm.trans h2)
      · exact ih (fun p hp => hlt p (List.mem_cons_of_mem _ hp))
          (List.nodup_cons.mp (by simpa using hnd)).2

/-! ### `findLRU` lemmas -/

theorem findLRU_go (l : List (JSString × ℕ)) :
    ∀ (b p : JSString × ℕ),
      l.foldl (fun acc p2 =>
        match acc with
        | none => some p2
        | some b2 => if p2.2 < b2.2 then some p2 else acc) (some b) = some p →
      (p = b ∨ p ∈ l) ∧ p.2 ≤ b.2 ∧ (∀ q ∈ l, p.2 ≤ q.2) := by
  induction l with
  | nil =>
    intro b p h
    simp only [List.foldl_nil, Option.some.injEq] at h
    exact ⟨Or.inl h.symm, h ▸ le_refl _, by simp⟩
  | cons a l ih =>
    intro b p h
    rw [List.foldl_cons] at h
    have hstep : (match some b with
        | none => some a
        | some b2 => if a.2 < b2.2 then some a else some b) =
        if a.2 < b.2 then some a else some b := rfl
    rw [hstep] at h
    by_cases hab : a.2 < b.2
    · rw [if_pos hab] at h
      obtain ⟨h1, h2, h3⟩ := ih a p h
      refine ⟨?_, ?_, ?_⟩
      · rcases h1 with rfl | h1
        · exact Or.inr (by simp)
        · exact Or.inr (List.mem_cons_of_mem _ h1)
      · exact le_trans h2 (le_of_lt hab)
      · intro q hq
        rcases List.mem_cons.mp hq with rfl | hq
        · exact h2
        · exact h3 q hq
    · rw [if_neg hab] at h
      obtain ⟨h1, h2, h3⟩ := ih b p h
      refine ⟨?_, h2, ?_⟩
      · rcases h1 with rfl | h1
        · exact Or.inl rfl
        · exact Or.inr (List.mem_cons_of_mem _ h1)
      · intro q hq
        rcases List.mem_cons.mp hq with rfl | hq
        · exact le_trans h2 (le_of_not_lt hab)
        · exact h3 q hq

theorem findLRU_spec {l : List (JSString × ℕ)} {p : JSString × ℕ}
    (h : findLRU l = some p) : p ∈ l ∧ ∀ q ∈ l, p.2 ≤ q.2 := by
  cases l with
  | nil => simp [findLRU] at h
  | cons a rest =>
    rw [findLRU, List.foldl_cons] at h
    obtain ⟨h1, h2, h3⟩ := findLRU_go rest a p h
    refine ⟨?_, ?_⟩
    · rcases h1 with rfl | h1
      · simp
      · exact List.mem_cons_of_mem _ h1
    · intro q hq
      rcases List.mem_cons.mp hq with rfl | hq
      · exact h2
      · exact h3 q hq

theorem findLRU_go_isSome (l : List (JSString × ℕ)) (b : JSString × ℕ) :
    ∃ p, l.foldl (fun acc p2 =>
      match acc with
      | none => some p2
      | some b2 => if p2.2 < b2.2 then some p2 else acc) (some b) = some p := by
  induction l generalizing b with
  | nil => exact ⟨b, rfl⟩
  | cons a l ih =>
    rw [List.foldl_cons]
    have hstep : (match some b with
        | none => some a
        | some b2 => if a.2 < b2.2 then some a else some b) =
        if a.2 < b.2 then some a else some b := rfl
    rw [hstep]
    by_cases hab : a.2 < b.2
    · rw [if_pos hab]; exact ih a
    · rw [if_neg hab]; exact ih b

theorem findLRU_of_ne_nil {l : List (JSString × ℕ)} (h : l ≠ []) :
    ∃ p, findLRU l = some p := by
  cases l with
  | nil => exact absurd rfl h
  | cons a rest =>
    rw [findLRU, List.foldl_cons]
    exact findLRU_go_isSome rest a

/-! ### Characterization of the cache operations -/

theorem evictLRU_fields (s : WebDataCache) :
    s.evictLRU.ttlMinutes = s.ttlMinutes ∧
    s.evictLRU.maxCacheSize = s.maxCacheSize ∧
    s.evictLRU.accessCounter = s.accessCounter := by
  rw [WebDataCache.evictLRU]
  split
  · exact ⟨rfl, rfl, rfl⟩
  · split
    · exact ⟨rfl, rfl, rfl⟩
    · exact ⟨rfl, rfl, rfl⟩

theorem set_cache_eq (s : WebDataCache) (t : ℕ) (q : JSString) (d : Option JSString) :
    (s.set t q d).cache = mapSet s.evictLRU.cache (generateCacheKey q)
      ⟨d, t, t + s.ttlMinutes * 60000⟩ := rfl

theorem set_accessOrder_eq (s : WebDataCache) (t : ℕ) (q : JSString) (d : Option JSString) :
    (s.set t q d).accessOrder = mapSet s.evictLRU.accessOrder (generateCacheKey q)
      (s.evictLRU.accessCounter + 1) := rfl

theorem set_fields (s : WebDataCache) (t : ℕ) (q : JSString) (d : Option JSString) :
    (s.set t q d).ttlMinutes = s.ttlMinutes ∧
    (s.set t q d).maxCacheSize = s.maxCacheSize ∧
    (s.set t q d).accessCounter = s.evictLRU.accessCounter + 1 := by
  refine ⟨?_, ?_, rfl⟩
  · show s.evictLRU.ttlMinutes = s.ttlMinutes
    exact (evictLRU_fields s).1
  · show s.evictLRU.maxCacheSize = s.maxCacheSize
    exact (evictLRU_fields s).2.1

theorem get_eq_of_lookup_none {s : WebDataCache} {t : ℕ} {q : JSString}
    (hl : mapLookup s.cache (generateCacheKey q) = none) :
    s.get t q = (none, s) := by
  simp only [WebDataCache.get]
  split
  · rfl
  · rename_i e2 heq
    rw [heq] at hl
    cases hl

theorem get_eq_of_lookup_valid {s : WebDataCache} {t : ℕ} {q : JSString} {e : CachedResult}
    (hl : mapLookup s.cache (generateCacheKey q) = some e) (hv : t < e.expiresAt) :
    s.get t q = (e.data, s.updateAccessOrder (generateCacheKey q)) := by
  simp only [WebDataCache.get]
  split
  · rename_i heq
    rw [heq] at hl
    cases hl
  · rename_i e2 heq
    rw [heq] at hl
    simp only [Option.some.injEq] at hl
    subst hl
    rw [if_pos hv]

theorem get_eq_of_lookup_expired {s : WebDataCache} {t : ℕ} {q : JSString} {e : CachedResult}
    (hl : mapLookup s.cache (generateCacheKey q) = some e) (hv : e.expiresAt ≤ t) :
    s.get t q = (none,
      { s with cache := mapDelete s.cache (generateCacheKey q),
               accessOrder := mapDelete s.accessOrder (generateCacheKey q) }) := by
  simp only [WebDataCache.get]
  split
  · rename_i heq
    rw [heq] at hl
    cases hl
  · rename_i e2 heq
    rw [heq] at hl
    simp only [Option.some.injEq] at hl
    subst hl
    rw [if_neg (not_lt.mpr hv)]

/-- C8: `set(q, d)` followed by `get(q)` strictly before the stored expiry
time (`set` time plus `ttlMinutes` in milliseconds) returns exactly `d`; at
or after the expiry time `get(q)` returns null and the expired entry is
removed from the cache map. Both operations are total functions of the
state (the code resolves logical misses and expiry to null rather than
throwing). -/
theorem webDataCache_set_then_get (s : WebDataCache) (q : JSString)
    (d : Option JSString) (t t2 : ℕ) :
    (t2 < t + s.ttlMinutes * 60000 →
      ((s.set t q d).get t2 q).1 = d) ∧
    (t + s.ttlMinutes * 60000 ≤ t2 →
      ((s.set t q d).get t2 q).1 = none ∧
      mapLookup ((s.set t q d).get t2 q).2.cache (generateCacheKey q) = none) := by
  have hl : mapLookup (s.set t q d).cache (generateCacheKey q) =
      some ⟨d, t, t + s.ttlMinutes * 60000⟩ := by
    rw [set_cache_eq]
    exact mapLookup_mapSet_self _ _ _
  constructor
  · intro h
    rw [get_eq_of_lookup_valid hl h]
  · intro h
    rw [get_eq_of_lookup_expired hl h]
    exact ⟨rfl, mapLookup_mapDelete_self _ _⟩

/-- C8 witness: a fresh 15-minute cache, `set` at time 0, `get` at time 1
returns the payload; `get` at time 900000 (exactly 15 minutes later)
returns null. -/
theorem webDataCache_set_then_get_witness :
    (((mkWebDataCache 15 1000).set 0 (strChars "tesla revenue")
        (some (strChars "42"))).get 1 (strChars "tesla revenue")).1
      = some (strChars "42") ∧
    (((mkWebDataCache 15 1000).set 0 (strChars "tesla revenue")
        (some (strChars "42"))).get 900000 (strChars "tesla revenue")).1 = none :=
  ⟨(webDataCache_set_then_get (mkWebDataCache 15 1000) (strChars "tesla revenue")
      (some (strChars "42")) 0 1).1 (by decide),
   ((webDataCache_set_then_get (mkWebDataCache 15 1000) (strChars "tesla revenue")
      (some (strChars "42")) 0 900000).2 (by decide)).1⟩

/-- C4: (scenario) on a capacity-2 cache, set("a"), set("b"), get("a"),
set("c") evicts exactly "b": the surviving keys are those of "a" and "c",
get("a") and get("c") before expiry return their payloads and get("b")
returns null; (general) a `set` performed when the cache is at capacity
first removes the key returned by the LRU scan — an entry of the access
map with minimal access counter — before storing the new entry; and a
`get` hit bumps the hit key's access counter to the freshly incremented
global counter. -/
theorem webDataCache_lru_eviction :
    ((let a := strChars "a"
      let b := strChars "b"
      let c := strChars "c"
      let s2 := ((mkWebDataCache 15 2).set 0 a (some (strChars "A"))).set 1 b
        (some (strChars "B"))
      let s4 := ((s2.get 2 a).2).set 3 c (some (strChars "C"))
      s4.cache.map Prod.fst = [generateCacheKey a, generateCacheKey c] ∧
      (s4.get 4 a).1 = some (strChars "A") ∧
      (s4.get 4 c).1 = some (strChars "C") ∧
      (s4.get 4 b).1 = none)) ∧
    (∀ (s : WebDataCache) (t : ℕ) (q : JSString) (d : Option JSString)
       (k : JSString) (n : ℕ),
      s.maxCacheSize ≤ s.cache.length →
      findLRU s.accessOrder = some (k, n) →
      (k, n) ∈ s.accessOrder ∧
      (∀ p ∈ s.accessOrder, n ≤ p.2) ∧
      (s.set t q d).cache =
        mapSet (mapDelete s.cache k) (generateCacheKey q)
          ⟨d, t, t + s.ttlMinutes * 60000⟩) ∧
    (∀ (s : WebDataCache) (t : ℕ) (q : JSString) (e : CachedResult),
      mapLookup s.cache (generateCacheKey q) = some e →
      t < e.expiresAt →
      (s.get t q).2.accessOrder =
        mapSet s.accessOrder (generateCacheKey q) (s.accessCounter + 1) ∧
      (s.get t q).2.accessCounter = s.accessCounter + 1) := by
  refine ⟨by decide, ?_, ?_⟩
  · intro s t q d k n hcap hfind
    obtain ⟨hmem, hmin⟩ := findLRU_spec hfind
    have hev : s.evictLRU.cache = mapDelete s.cache k := by
      rw [WebDataCache.evictLRU, if_neg (not_lt.mpr hcap), hfind]
    refine ⟨hmem, fun p hp => hmin p hp, ?_⟩
    rw [set_cache_eq, hev]
  · intro s t q e hl hv
    rw [get_eq_of_lookup_valid hl hv]
    exact ⟨rfl, rfl⟩

/-- C4 witness: in the concrete scenario, `set("c")` on the at-capacity
cache removes key "a" when "a" holds the minimal access counter, and a
`get` hit on "a" bumps the counter from 1 to 2. -/
theorem webDataCache_lru_eviction_witness :
    ((strChars "a", 1) ∈
      (((mkWebDataCache 15 2).set 0 (strChars "a") (some (strChars "A"))).set 1
        (strChars "b") (some (strChars "B"))).accessOrder) ∧
    ((((mkWebDataCache 15 2).set 0 (strChars "a") (some (strChars "A"))).get 1
        (strChars "a")).2.accessCounter =
      ((mkWebDataCache 15 2).set 0 (strChars "a")
        (some (strChars "A"))).accessCounter + 1) := by
  constructor
  · exact (webDataCache_lru_eviction.2.1
      (((mkWebDataCache 15 2).set 0 (strChars "a") (some (strChars "A"))).set 1
        (strChars "b") (some (strChars "B"))) 3 (strChars "c") (some (strChars "C"))
      (strChars "a") 1 (by decide) (by decide)).1
  · exact (webDataCache_lru_eviction.2.2
      ((mkWebDataCache 15 2).set 0 (strChars "a") (some (strChars "A"))) 1 (strChars "a")
      ⟨some (strChars "A"), 0, 900000⟩ (by decide) (by decide)).2

/-- Entries of the post-`get` cache all come from the original cache
(`get` only ever deletes an expired entry). -/
theorem get_cache_subset (s : WebDataCache) (now : ℕ) (q : JSString) :
    ∀ p ∈ (s.get now q).2.cache, p ∈ s.cache := by
  cases hl : mapLookup s.cache (generateCacheKey q) with
  | none =>
    rw [get_eq_of_lookup_none hl]
    exact fun p hp => hp
  | some e =>
    by_cases hv : now < e.expiresAt
    · rw [get_eq_of_lookup_valid hl hv]
      exact fun p hp => hp
    · rw [get_eq_of_lookup_expired hl (not_lt.mp hv)]
      exact fun p hp => mem_mapDelete hp

/-- Entries of the post-`evictLRU` cache all come from the original cache. -/
theorem evictLRU_cache_subset (s : WebDataCache) :
    ∀ p ∈ s.evictLRU.cache, p ∈ s.cache := by
  by_cases hc : s.cache.length < s.maxCacheSize
  · rw [WebDataCache.evictLRU, if_pos hc]
    exact fun p hp => hp
  · rw [WebDataCache.evictLRU, if_neg hc]
    cases hf : findLRU s.accessOrder with
    | none => exact fun p hp => hp
    | some kp =>
      obtain ⟨k, n⟩ := kp
      exact fun p hp => mem_mapDelete hp

/-- Every entry of the post-`set` cache is either an old entry or carries
exactly the payload just stored. -/
theorem set_cache_entries {s : WebDataCache} {t : ℕ} {q : JSString} {d : Option JSString}
    {p : JSString × CachedResult} (hp : p ∈ (s.set t q d).cache) :
    p ∈ s.cache ∨ p.2.data = d := by
  rw [set_cache_eq] at hp
  rcases mem_mapSet hp with h | h
  · exact Or.inl (evictLRU_cache_subset s p h)
  · exact Or.inr (by rw [h])

/-- The wrapper's output state: either the post-`get` state untouched, or
that state plus a single `set` of the looked-up payload. -/
theorem search_state_cases (s : WebDataCache) (now : ℕ) (q : JSString)
    (lookup : Except Unit JSString) :
    (searchFinancialDataWeb s now q lookup).2 = (s.get now q).2 ∨
    ∃ r, (searchFinancialDataWeb s now q lookup).2 =
      ((s.get now q).2).set now q (some r) := by
  rcases hg : s.get now q with ⟨r1, s1⟩
  cases r1 with
  | some c =>
    left
    simp only [searchFinancialDataWeb, hg]
  | none =>
    cases lookup with
    | error e =>
      left
      simp only [searchFinancialDataWeb, hg]
    | ok r =>
      right
      exact ⟨r, by simp only [searchFinancialDataWeb, hg]⟩

/-- C9: (i) when the underlying lookup fails on a cache miss the wrapper
returns null and leaves the cache exactly in its post-`get` state, so the
failure is never stored; (ii) if every cached payload is non-null then the
same holds after any run of the wrapper — only successful non-null payloads
are ever cached; (iii) consequently a failed search is not "poisoned": the
same query issued again with a working lookup re-attempts it, returns the
fresh result and only then caches it. -/
theorem searchFinancialDataWeb_no_negative_caching :
    (∀ (s : WebDataCache) (now : ℕ) (q : JSString),
      (s.get now q).1 = none →
      searchFinancialDataWeb s now q (Except.error ()) = (none, (s.get now q).2)) ∧
    (∀ (s : WebDataCache) (now : ℕ) (q : JSString) (lookup : Except Unit JSString),
      (∀ p ∈ s.cache, p.2.data ≠ none) →
      ∀ p ∈ (searchFinancialDataWeb s now q lookup).2.cache, p.2.data ≠ none) ∧
    (∀ (s : WebDataCache) (now now2 : ℕ) (q : JSString) (r : JSString),
      (∀ p ∈ s.cache, p.2.data ≠ none) →
      (s.get now q).1 = none →
      searchFinancialDataWeb (searchFinancialDataWeb s now q (Except.error ())).2
          now2 q (Except.ok r) =
        (some r, ((searchFinancialDataWeb s now q (Except.error ())).2).set
          now2 q (some r))) := by
  refine ⟨?_, ?_, ?_⟩
  · intro s now q hmiss
    rcases hg : s.get now q with ⟨r1, s1⟩
    rw [hg] at hmiss
    cases r1 with
    | some c => simp at hmiss
    | none => simp only [searchFinancialDataWeb, hg]
  · intro s now q lookup hinv p hp
    rcases search_state_cases s now q lookup with hc | ⟨r, hc⟩
    · rw [hc] at hp
      exact hinv p (get_cache_subset s now q p hp)
    · rw [hc] at hp
      rcases set_cache_entries hp with h | h
      · exact hinv p (get_cache_subset s now q p h)
      · rw [h]
        simp
  · intro s now now2 q r hinv hmiss
    have hlook1 : mapLookup (s.get now q).2.cache (generateCacheKey q) = none := by
      cases hl : mapLookup s.cache (generateCacheKey q) with
      | none =>
        rw [get_eq_of_lookup_none hl]
        exact hl
      | some e =>
        by_cases hv : now < e.expiresAt
        · exfalso
          rw [get_eq_of_lookup_valid hl hv] at hmiss
          exact hinv (generateCacheKey q, e) (mapLookup_mem hl) hmiss
        · rw [get_eq_of_lookup_expired hl (not_lt.mp hv)]
          exact mapLookup_mapDelete_self _ _
    have hs1 : (searchFinancialDataWeb s now q (Except.error ())).2 = (s.get now q).2 := by
      rcases hg : s.get now q with ⟨r1, s1⟩
      rw [hg] at hmiss
      cases r1 with
      | some c => simp at hmiss
      | none => simp only [searchFinancialDataWeb, hg]
    rw [hs1]
    have hget2 : ((s.get now q).2).get now2 q = (none, (s.get now q).2) :=
      get_eq_of_lookup_none hlook1
    simp only [searchFinancialDataWeb, hget2]

/-- C9 witness: on an empty cache a failing lookup returns null and leaves
the post-`get` state; re-asking the same query with a working lookup
returns and caches the fresh payload. -/
theorem searchFinancialDataWeb_no_negative_caching_witness :
    searchFinancialDataWeb (mkWebDataCache 15 1000) 0 (strChars "q") (Except.error ()) =
      (none, ((mkWebDataCache 15 1000).get 0 (strChars "q")).2) ∧
    searchFinancialDataWeb
        (searchFinancialDataWeb (mkWebDataCache 15 1000) 0 (strChars "q")
          (Except.error ())).2 5 (strChars "q") (Except.ok (strChars "77")) =
      (some (strChars "77"),
        ((searchFinancialDataWeb (mkWebDataCache 15 1000) 0 (strChars "q")
          (Except.error ())).2).set 5 (strChars "q") (some (strChars "77"))) :=
  ⟨searchFinancialDataWeb_no_negative_caching.1 (mkWebDataCache 15 1000) 0 (strChars "q")
     (by decide),
   searchFinancialDataWeb_no_negative_caching.2.2 (mkWebDataCache 15 1000) 0 5 (strChars "q")
     (strChars "77") (by decide) (by decide)⟩

/-! ### The C10 well-formedness invariant -/

/-- In a map with distinct keys, a key determines its entry. -/
theorem nodup_key_unique {β : Type} {l : List (JSString × β)}
    (hnd : (l.map Prod.fst).Nodup) {k : JSString} {a b : β}
    (ha : (k, a) ∈ l) (hb : (k, b) ∈ l) : a = b := by
  induction l with
  | nil => simp at ha
  | cons p rest ih =>
    rw [List.map_cons, List.nodup_cons] at hnd
    rcases List.mem_cons.mp ha with ha1 | ha2
    · rcases List.mem_cons.mp hb with hb1 | hb2
      · injection ha1.trans hb1.symm
      · exfalso
        apply hnd.1
        rw [← ha1]
        exact List.mem_map.mpr ⟨(k, b), hb2, rfl⟩
    · rcases List.mem_cons.mp hb with hb1 | hb2
      · exfalso
        apply hnd.1
        rw [← hb1]
        exact List.mem_map.mpr ⟨(k, a), ha2, rfl⟩
      · exact ih hnd.2 ha2 hb2

theorem mapSet_length_le {β : Type} (l : List (JSString × β)) (k : JSString) (v : β) :
    (mapSet l k v).length ≤ l.length + 1 := by
  induction l with
  | nil => simp [mapSet]
  | cons p rest ih =>
    obtain ⟨k2, v2⟩ := p
    rw [mapSet]
    by_cases hk : k2 = k
    · rw [if_pos hk]
      simp
    · rw [if_neg hk, List.length_cons, List.length_cons]
      omega

/-- Filtering two key-aligned maps by predicates that agree on the key
keeps the key sequences aligned. -/
theorem aligned_filter_map_fst {A B : Type} (r : JSString → Bool) :
    ∀ (l1 : List (JSString × A)) (l2 : List (JSString × B))
      (p : JSString × A → Bool) (q : JSString × B → Bool),
      l1.map Prod.fst = l2.map Prod.fst →
      (∀ x ∈ l1, p x = r x.1) → (∀ y ∈ l2, q y = r y.1) →
      (l1.filter p).map Prod.fst = (l2.filter q).map Prod.fst := by
  intro l1
  induction l1 with
  | nil =>
    intro l2 p q h _ _
    cases l2 with
    | nil => rfl
    | cons y l2 => simp at h
  | cons x l1 ih =>
    intro l2 p q h hp hq
    cases l2 with
    | nil => simp at h
    | cons y l2 =>
      simp only [List.map_cons, List.cons.injEq] at h
      obtain ⟨hxy, hrest⟩ := h
      rw [List.filter_cons, List.filter_cons]
      have hpx : p x = r x.1 := hp x (by simp)
      have hqy : q y = r y.1 := hq y (by simp)
      have hih := ih l2 p q hrest (fun a ha => hp a (List.mem_cons_of_mem _ ha))
        (fun a ha => hq a (List.mem_cons_of_mem _ ha))
      rw [hpx, hqy, hxy]
      by_cases hr : r y.1 = true
      · rw [if_pos hr, if_pos hr, List.map_cons, List.map_cons, hih, hxy]
      · rw [if_neg hr, if_neg hr, hih]

/-- With distinct cache keys, membership of a key in the expired-key list
computed by `cleanupExpired` is exactly that entry's own expiry test. -/
theorem expired_contains {l : List (JSString × CachedResult)}
    (hnd : (l.map Prod.fst).Nodup) (now : ℕ) {p : JSString × CachedResult} (hp : p ∈ l) :
    (((l.filter (fun q => decide (q.2.expiresAt ≤ now))).map Prod.fst).contains p.1)
      = decide (p.2.expiresAt ≤ now) := by
  by_cases he : p.2.expiresAt ≤ now
  · rw [decide_eq_true he]
    exact List.elem_iff.mpr
      (List.mem_map_of_mem Prod.fst (List.mem_filter.mpr ⟨hp, decide_eq_true he⟩))
  · rw [decide_eq_false he]
    by_contra hc
    simp only [Bool.not_eq_false] at hc
    obtain ⟨⟨qk, qe⟩, hqf, hq1⟩ := List.mem_map.mp (List.elem_iff.mp hc)
    have hq2 := List.mem_filter.mp hqf
    have hqk : qk = p.1 := hq1
    subst hqk
    have hp2 : (p.1, p.2) ∈ l := by
      rw [Prod.mk.eta]
      exact hp
    have heq : qe = p.2 := nodup_key_unique hnd hq2.1 hp2
    rw [heq] at hq2
    exact he (of_decide_eq_true hq2.2)

/-- Removing one key from both maps preserves the invariant. -/
theorem deleteKey_inv {s : WebDataCache} (hinv : CacheInv s) (k : JSString) :
    CacheInv { s with cache := mapDelete s.cache k,
                      accessOrder := mapDelete s.accessOrder k } := by
  obtain ⟨h1, h2, h3, h4, h5, h6⟩ := hinv
  refine ⟨?_, ?_, ?_, h4, ?_, ?_⟩
  · show (mapDelete s.cache k).map Prod.fst = (mapDelete s.accessOrder k).map Prod.fst
    rw [mapDelete_map_fst, mapDelete_map_fst, h1]
  · show ((mapDelete s.cache k).map Prod.fst).Nodup
    rw [mapDelete_map_fst]
    exact h2.sublist (List.filter_sublist _)
  · show (mapDelete s.cache k).length ≤ s.maxCacheSize
    exact (List.length_filter_le _ _).trans h3
  · exact mapDelete_snd_nodup _ h5
  · intro p hp
    exact h6 p (mem_mapDelete hp)

theorem delete_inv {s : WebDataCache} (hinv : CacheInv s) (q : JSString) :
    CacheInv (s.delete q).2 :=
  deleteKey_inv hinv (generateCacheKey q)

theorem clear_inv {s : WebDataCache} (hinv : CacheInv s) : CacheInv s.clear := by
  obtain ⟨h1, h2, h3, h4, h5, h6⟩ := hinv
  refine ⟨rfl, List.nodup_nil, Nat.zero_le _, h4, List.nodup_nil, ?_⟩
  intro p hp
  simp [WebDataCache.clear] at hp

theorem updateAccessOrder_inv {s : WebDataCache} (hinv : CacheInv s) {k : JSString}
    (hk : k ∈ s.accessOrder.map Prod.fst) :
    CacheInv (s.updateAccessOrder k) := by
  obtain ⟨h1, h2, h3, h4, h5, h6⟩ := hinv
  refine ⟨?_, h2, h3, h4, ?_, ?_⟩
  · show s.cache.map Prod.fst = (mapSet s.accessOrder k (s.accessCounter + 1)).map Prod.fst
    rw [mapSet_map_fst_mem _ _ _ hk, h1]
  · exact mapSet_snd_nodup (fun p hp => by have := h6 p hp; omega) h5
  · intro p hp
    show p.2 ≤ s.accessCounter + 1
    rcases mem_mapSet hp with h | h
    · have := h6 p h
      omega
    · omega

theorem get_inv {s : WebDataCache} (hinv : CacheInv s) (now : ℕ) (q : JSString) :
    CacheInv (s.get now q).2 := by
  cases hl : mapLookup s.cache (generateCacheKey q) with
  | none =>
    rw [get_eq_of_lookup_none hl]
    exact hinv
  | some e =>
    by_cases hv : now < e.expiresAt
    · rw [get_eq_of_lookup_valid hl hv]
      apply updateAccessOrder_inv hinv
      rw [← hinv.1]
      exact List.mem_map_of_mem Prod.fst (mapLookup_mem hl)
    · rw [get_eq_of_lookup_expired hl (not_lt.mp hv)]
      exact deleteKey_inv hinv (generateCacheKey q)

theorem evictLRU_inv {s : WebDataCache} (hinv : CacheInv s) : CacheInv s.evictLRU := by
  by_cases hc : s.cache.length < s.maxCacheSize
  · rw [WebDataCache.evictLRU, if_pos hc]
    exact hinv
  · rw [WebDataCache.evictLRU, if_neg hc]
    cases hf : findLRU s.accessOrder with
    | none => exact hinv
    | some kp =>
      obtain ⟨k, n⟩ := kp
      exact deleteKey_inv hinv k

/-- After `evictLRU`, a well-formed cache is strictly below capacity. -/
theorem evictLRU_length_lt {s : WebDataCache} (hinv : CacheInv s) :
    s.evictLRU.cache.length < s.maxCacheSize := by
  obtain ⟨h1, h2, h3, h4, h5, h6⟩ := hinv
  by_cases hc : s.cache.length < s.maxCacheSize
  · rw [WebDataCache.evictLRU, if_pos hc]
    exact hc
  · have hlen : s.cache.length = s.maxCacheSize := le_antisymm h3 (not_lt.mp hc)
    have hane : s.accessOrder ≠ [] := by
      intro h0
      rw [h0] at h1
      simp only [List.map_nil, List.map_eq_nil_iff] at h1
      rw [h1] at hlen
      simp at hlen
      omega
    obtain ⟨p, hp⟩ := findLRU_of_ne_nil hane
    obtain ⟨k, n⟩ := p
    rw [WebDataCache.evictLRU, if_neg hc, hp]
    show (mapDelete s.cache k).length < s.maxCacheSize
    have hkmem : k ∈ s.cache.map Prod.fst := by
      rw [h1]
      exact List.mem_map_of_mem Prod.fst (findLRU_spec hp).1
    have := mapDelete_length s.cache k h2 hkmem
    omega

theorem set_inv {s : WebDataCache} (hinv : CacheInv s) (t : ℕ) (q : JSString)
    (d : Option JSString) : CacheInv (s.set t q d) := by
  have hinv1 := evictLRU_inv hinv
  have hlen1 := evictLRU_length_lt hinv
  have hmax : s.evictLRU.maxCacheSize = s.maxCacheSize := (evictLRU_fields s).2.1
  obtain ⟨h1, h2, h3, h4, h5, h6⟩ := hinv1
  simp only [CacheInv, set_cache_eq, set_accessOrder_eq,
    (set_fields s t q d).2.1, (set_fields s t q d).2.2]
  have hkey : generateCacheKey q ∈ s.evictLRU.accessOrder.map Prod.fst ↔
      generateCacheKey q ∈ s.evictLRU.cache.map Prod.fst := by
    rw [h1]
  refine ⟨?_, ?_, ?_, by omega, ?_, ?_⟩
  · by_cases hk : generateCacheKey q ∈ s.evictLRU.cache.map Prod.fst
    · rw [mapSet_map_fst_mem _ _ _ hk, mapSet_map_fst_mem _ _ _ (hkey.mpr hk), h1]
    · rw [mapSet_map_fst_not_mem _ _ _ hk,
        mapSet_map_fst_not_mem _ _ _ (fun hmem => hk (hkey.mp hmem)), h1]
  · by_cases hk : generateCacheKey q ∈ s.evictLRU.cache.map Prod.fst
    · rw [mapSet_map_fst_mem _ _ _ hk]
      exact h2
    · rw [mapSet_map_fst_not_mem _ _ _ hk]
      refine List.Nodup.append h2 (List.nodup_singleton _) ?_
      intro a ha hb
      rw [List.mem_singleton] at hb
      exact hk (hb ▸ ha)
  · have := mapSet_length_le s.evictLRU.cache (generateCacheKey q)
      ⟨d, t, t + s.ttlMinutes * 60000⟩
    omega
  · exact mapSet_snd_nodup (fun p hp => by have := h6 p hp; omega) h5
  · intro p hp
    rcases mem_mapSet hp with h | h
    · have := h6 p h
      omega
    · omega

theorem cleanup_inv {s : WebDataCache} (hinv : CacheInv s) (now : ℕ) :
    CacheInv (s.cleanupExpired now) := by
  obtain ⟨h1, h2, h3, h4, h5, h6⟩ := hinv
  refine ⟨?_, ?_, ?_, h4, ?_, ?_⟩
  · show (s.cache.filter (fun p => decide (now < p.2.expiresAt))).map Prod.fst =
      (s.accessOrder.filter (fun p =>
        !(((s.cache.filter (fun q2 => decide (q2.2.expiresAt ≤ now))).map
          Prod.fst).contains p.1))).map Prod.fst
    refine aligned_filter_map_fst
      (fun k => !(((s.cache.filter (fun q2 =>
        decide (q2.2.expiresAt ≤ now))).map Prod.fst).contains k))
      s.cache s.accessOrder _ _ h1 ?_ ?_
    · intro x hx
      show decide (now < x.2.expiresAt) =
        !(((s.cache.filter (fun q2 =>
          decide (q2.2.expiresAt ≤ now))).map Prod.fst).contains x.1)
      rw [expired_contains h2 now hx, ← decide_not]
      exact decide_eq_decide.mpr (by omega)
    · intro y hy
      rfl
  · show ((s.cache.filter (fun p => decide (now < p.2.expiresAt))).map Prod.fst).Nodup
    exact h2.sublist (List.Sublist.map Prod.fst (List.filter_sublist _))
  · show (s.cache.filter (fun p => decide (now < p.2.expiresAt))).length ≤ s.maxCacheSize
    exact (List.length_filter_le _ _).trans h3
  · exact h5.sublist (List.Sublist.map Prod.snd (List.filter_sublist _))
  · intro p hp
    exact h6 p (List.mem_of_mem_filter hp)

theorem applyOp_inv {s : WebDataCache} (hinv : CacheInv s) (op : CacheOp) :
    CacheInv (applyOp s op) := by
  cases op with
  | set q d t => exact set_inv hinv t q d
  | get q t => exact get_inv hinv t q
  | del q => exact delete_inv hinv q
  | clear => exact clear_inv hinv
  | cleanup t => exact cleanup_inv hinv t

theorem foldl_applyOp_inv (ops : List CacheOp) :
    ∀ s : WebDataCache, CacheInv s → CacheInv (ops.foldl applyOp s) := by
  induction ops with
  | nil => exact fun s h => h
  | cons op rest ih =>
    intro s h
    rw [List.foldl_cons]
    exact ih _ (applyOp_inv h op)

theorem mkWebDataCache_inv (ttl mx : ℕ) : CacheInv (mkWebDataCache ttl mx) := by
  refine ⟨rfl, List.nodup_nil, Nat.zero_le _, ?_, List.nodup_nil, ?_⟩
  · show 0 < (if mx = 0 then 1000 else mx)
    by_cases h : mx = 0
    · rw [if_pos h]
      omega
    · rw [if_neg h]
      omega
  · intro p hp
    simp [mkWebDataCache] at hp

/-- C10: after any sequence of set, get, delete, clear and expiry-sweep
operations starting from a freshly constructed cache, the entry map and
the access-order map hold exactly the same key sequence (hence the same
key set), and the number of cached entries never exceeds `maxCacheSize`. -/
theorem webDataCache_inv (ttl mx : ℕ) (ops : List CacheOp) :
    (ops.foldl applyOp (mkWebDataCache ttl mx)).cache.map Prod.fst =
      (ops.foldl applyOp (mkWebDataCache ttl mx)).accessOrder.map Prod.fst ∧
    (ops.foldl applyOp (mkWebDataCache ttl mx)).cache.length ≤
      (ops.foldl applyOp (mkWebDataCache ttl mx)).maxCacheSize := by
  have h := foldl_applyOp_inv ops (mkWebDataCache ttl mx) (mkWebDataCache_inv ttl mx)
  exact ⟨h.1, h.2.2.1⟩
